import Mathlib

/-!
# Packet logging (`picoquic/logger.c`): frame decoders

A shallow embedding of the frame decoders of `logger.c`.

* A byte buffer is a `List (Fin 256)`; a C pointer into it is a `Ptr` (the buffer
  and an offset), and `bytes + n` is `Ptr.add`.
* Every evaluation of `bytes[i]` goes through `read`, which records the index
  (counted from the start of the buffer) in the trace.  A read at an index that
  is not inside the buffer stops the run with outcome `Outcome.oob`: the index
  is still recorded.
* Every `fprintf(F, fmt, args...)` is recorded as a `Printf` value holding the
  format string and the arguments; `Printf.text` is the text it writes.
* `size_t` values are natural numbers: the cursors computed by the decoders are
  bounded by the slice length plus a small constant.  The `int` returned by
  `picoquic_log_stream_frame` is an `Int`: `size_t_to_int` is the conversion done
  by its `return byte_index`, and `size_t_add_int` is the `byte_index += ...` of
  the caller.
* C loops are recursive functions with an iteration budget; running out of
  budget is the separate outcome `Outcome.fuel`.
-/

namespace Picoquic

/-! ## Traces and the decoder monad -/

/-- An argument of a `fprintf` call: an integer or a string. -/
inductive Arg where
  | num (n : Nat)
  | str (s : String)
  deriving DecidableEq, Repr

/-- One `fprintf(F, fmt, args...)` call. -/
structure Printf where
  fmt : String
  args : List Arg
  deriving DecidableEq, Repr

/-- What a run has done so far: the `fprintf` calls and the indices read, both in order. -/
structure Trace where
  out : List Printf
  reads : List Nat
  deriving DecidableEq, Repr

/-- How a run ends. -/
inductive Outcome (α : Type) where
  | ret (a : α)
  | oob
  | fuel
  deriving DecidableEq, Repr

/-- A computation that reads bytes and prints. -/
def M (α : Type) : Type := Trace → Outcome α × Trace

/-- Return a value, leaving the trace as it is. -/
def M.pure {α : Type} (a : α) : M α := fun t => (Outcome.ret a, t)

/-- Sequencing: the second computation runs only when the first returned. -/
def M.bind {α β : Type} (m : M α) (f : α → M β) : M β := fun t =>
  match m t with
  | (Outcome.ret a, t1) => f a t1
  | (Outcome.oob, t1) => (Outcome.oob, t1)
  | (Outcome.fuel, t1) => (Outcome.fuel, t1)

instance : Monad M where
  pure := M.pure
  bind := M.bind

/-- The iteration budget of a loop is used up. -/
def outOfFuel {α : Type} : M α := fun t => (Outcome.fuel, t)

/-- Run a computation from the empty trace. -/
def M.run {α : Type} (m : M α) : Outcome α × Trace := m ⟨[], []⟩

/-- A pointer into a byte buffer. -/
structure Ptr where
  buf : List (Fin 256)
  base : Nat
  deriving DecidableEq, Repr

/-- Pointer arithmetic `bytes + n`. -/
def Ptr.add (p : Ptr) (n : Nat) : Ptr := ⟨p.buf, p.base + n⟩

/-- The expression `bytes[i]`. -/
def read (bytes : Ptr) (i : Nat) : M Nat := fun t =>
  match bytes.buf[bytes.base + i]? with
  | some b => (Outcome.ret b.val, ⟨t.out, t.reads ++ [bytes.base + i]⟩)
  | none => (Outcome.oob, ⟨t.out, t.reads ++ [bytes.base + i]⟩)

/-- The statement `fprintf(F, fmt, args...)`. -/
def fprintf (fmt : String) (args : List Arg) : M Unit := fun t =>
  (Outcome.ret (), ⟨t.out ++ [⟨fmt, args⟩], t.reads⟩)

/-! ## Big-endian field readers -/

/-- Modelled from the spec: the macro `PICOPARSE_16` of `picoquic.h`, which is not part
of the source file; the spec describes the fields as big-endian values. -/
def PICOPARSE_16 (b : Ptr) (i : Nat) : M Nat := do
  let b0 ← read b i
  let b1 ← read b (i + 1)
  return b0 * 256 + b1

/-- Modelled from the spec: the macro `PICOPARSE_24` of `picoquic.h`, which is not part
of the source file; the spec describes the fields as big-endian values. -/
def PICOPARSE_24 (b : Ptr) (i : Nat) : M Nat := do
  let hi ← PICOPARSE_16 b i
  let b2 ← read b (i + 2)
  return hi * 256 + b2

/-- Modelled from the spec: the macro `PICOPARSE_32` of `picoquic.h`, which is not part
of the source file; the spec describes the fields as big-endian values. -/
def PICOPARSE_32 (b : Ptr) (i : Nat) : M Nat := do
  let hi ← PICOPARSE_16 b i
  let lo ← PICOPARSE_16 b (i + 2)
  return hi * 65536 + lo

/-- Modelled from the spec: the macro `PICOPARSE_64` of `picoquic.h`, which is not part
of the source file; the spec describes the fields as big-endian values. -/
def PICOPARSE_64 (b : Ptr) (i : Nat) : M Nat := do
  let hi ← PICOPARSE_32 b i
  let lo ← PICOPARSE_32 b (i + 4)
  return hi * 4294967296 + lo

/-! ## Stream frames -/

/-- The preview loop of `picoquic_log_stream_frame`:
`for (i = 0; i < 8 && i < data_length; i++) fprintf(F, "%02x", bytes[byte_index + i])`. -/
def stream_preview (bytes : Ptr) (byte_index data_length : Nat) : Nat → Nat → M Unit
  | 0, _ => outOfFuel
  | fuel + 1, i =>
    if i < 8 ∧ i < data_length then do
      let b ← read bytes (byte_index + i)
      fprintf "%02x" [Arg.num b]
      stream_preview bytes byte_index data_length fuel (i + 1)
    else
      return ()

/-- The statements of `picoquic_log_stream_frame` before its `return byte_index;`: the
value is the `size_t` variable `byte_index` at that point. -/
def stream_frame_byte_index (bytes : Ptr) (bytes_max : Nat) : M Nat := do
  let byte_index := 1
  let first_byte ← read bytes 0
  let stream_id_length := 1 + ((first_byte >>> 3) &&& 3)
  let data_length_length := (first_byte &&& 1) * 2
  let offset_length :=
    match (first_byte >>> 1) &&& 3 with
    | 0 => 0
    | 1 => 2
    | 2 => 4
    | 3 => 8
    | _ => 0
  if bytes_max < 1 + stream_id_length + offset_length + data_length_length then do
    fprintf "    Malformed stream frame.\n" []
    return bytes_max
  else do
    let stream_id ←
      match stream_id_length with
      | 1 => read bytes byte_index
      | 2 => PICOPARSE_16 bytes byte_index
      | 3 => PICOPARSE_24 bytes byte_index
      | 4 => PICOPARSE_32 bytes byte_index
      | _ => pure 0
    let byte_index := byte_index + stream_id_length
    let offset ←
      match offset_length with
      | 0 => pure 0
      | 2 => PICOPARSE_16 bytes byte_index
      | 4 => PICOPARSE_32 bytes byte_index
      | 8 => PICOPARSE_64 bytes byte_index
      | _ => pure 0
    let byte_index := byte_index + offset_length
    let (data_length, byte_index) ←
      if data_length_length = 0 then
        pure (bytes_max - byte_index, byte_index)
      else do
        let l ← PICOPARSE_16 bytes byte_index
        pure (l, byte_index + 2)
    fprintf "    Stream %d, offset %llu, length %d"
      [Arg.num stream_id, Arg.num offset, Arg.num data_length]
    if byte_index + data_length > bytes_max then do
      fprintf ", malformed!\n" []
      return bytes_max
    else do
      fprintf ": " []
      stream_preview bytes byte_index data_length 9 0
      fprintf "%s\n" [Arg.str (if data_length > 8 then "..." else "")]
      return byte_index + data_length

/-- The conversion of a `size_t` value to `int` (32 bits, two's complement): the low 32
bits of the value, read as a signed number. -/
def size_t_to_int (n : Nat) : Int :=
  if n % 2 ^ 32 < 2 ^ 31 then ((n % 2 ^ 32 : Nat) : Int) else ((n % 2 ^ 32 : Nat) : Int) - 2 ^ 32

/-- The function `picoquic_log_stream_frame`.  It is declared `int` and ends with
`return byte_index;` where `byte_index` is a `size_t`: the value returned is the
conversion of `byte_index` to `int`. -/
def picoquic_log_stream_frame (bytes : Ptr) (bytes_max : Nat) : M Int := do
  let byte_index ← stream_frame_byte_index bytes bytes_max
  return size_t_to_int byte_index

/-! ## Ack frames -/

/-- The block loop of `picoquic_log_ack_frame`:
`for (int i = 0; ret == 0 && i < num_block; i++)`; `ret` is never assigned in the function,
so `ret == 0` always holds.  The value returned is `byte_index` after the loop. -/
def ack_blocks (bytes : Ptr) (mm num_block : Nat) : Nat → Nat → Nat → Nat → M Nat
  | 0, _, _, _ => outOfFuel
  | fuel + 1, i, byte_index, ack_range =>
    if i < num_block then do
      let gap ← read bytes byte_index
      let byte_index := byte_index + 1
      let (ack_range, byte_index) ←
        match mm with
        | 0 => do
          let r ← read bytes byte_index
          let byte_index := byte_index + 1
          pure (r, byte_index + 1)
        | 1 => do
          let r ← PICOPARSE_16 bytes byte_index
          pure (r, byte_index + 2)
        | 2 => do
          let r ← PICOPARSE_32 bytes byte_index
          pure (r, byte_index + 4)
        | 3 => do
          let r ← PICOPARSE_64 bytes byte_index
          pure (r, byte_index + 8)
        | _ => pure (ack_range, byte_index)
      fprintf "gap: %llx, range: %llx, " [Arg.num gap, Arg.num ack_range]
      ack_blocks bytes mm num_block fuel (i + 1) byte_index ack_range
    else
      return byte_index

/-- The size check of `picoquic_log_ack_frame` (the statements after the comment
"Check the size first"): the value of `min_size` when it is compared with `bytes_max`;
`byte_index` is the number of header bytes already consumed. -/
def ack_min_size (ll mm num_block num_ts byte_index : Nat) : Nat :=
  let min_size := byte_index
  let min_size :=
    match ll with
    | 0 => min_size + 1
    | 1 => min_size + 2
    | 2 => min_size + 4
    | 3 => min_size + 8
    | _ => min_size
  -- ACK delay
  let min_size := min_size + 2
  -- last range and blocks
  let min_size :=
    match mm with
    | 0 => min_size + (1 + num_block * (1 + 1))
    | 1 => min_size + (2 + num_block * (1 + 2))
    | 2 => min_size + (4 + num_block * (1 + 4))
    | 3 => min_size + (8 + num_block * (1 + 8))
    | _ => min_size
  if num_ts > 0 then min_size + (2 + num_ts * 3) else min_size

/-- The second half of `picoquic_log_ack_frame` (the statements after the comment
"Now that the size is good, print it"), entered with `byte_index` just after the header
bytes; the value returned is the value the function returns. -/
def ack_decode (bytes : Ptr) (bytes_max ll mm num_block num_ts byte_index : Nat) : M Nat := do
  fprintf "    ACK (nb=%d, nt=%d)," [Arg.num num_block, Arg.num num_ts]
  -- decoding the largest
  let byte_index ←
    match ll with
    | 0 => do
      let largest ← read bytes byte_index
      let byte_index := byte_index + 1
      fprintf "Largest = %02x, " [Arg.num (largest % 2 ^ 8)]
      pure byte_index
    | 1 => do
      let largest ← PICOPARSE_16 bytes byte_index
      fprintf "Largest = %04x, " [Arg.num (largest % 2 ^ 16)]
      pure (byte_index + 2)
    | 2 => do
      let largest ← PICOPARSE_32 bytes byte_index
      fprintf "Largest = %08x, " [Arg.num (largest % 2 ^ 32)]
      pure (byte_index + 4)
    | 3 => do
      let largest ← PICOPARSE_64 bytes byte_index
      fprintf "Largest = %llx, " [Arg.num largest]
      pure (byte_index + 8)
    | _ => pure byte_index
  -- ACK delay
  let byte_index := byte_index + 2
  -- last range
  let (last_range, byte_index) ←
    match mm with
    | 0 => do
      let r ← read bytes byte_index
      let byte_index := byte_index + 1
      pure (r, byte_index + 1)
    | 1 => do
      let r ← PICOPARSE_16 bytes byte_index
      pure (r, byte_index + 2)
    | 2 => do
      let r ← PICOPARSE_32 bytes byte_index
      pure (r, byte_index + 4)
    | 3 => do
      let r ← PICOPARSE_64 bytes byte_index
      pure (r, byte_index + 8)
    | _ => pure (0, byte_index)
  fprintf "range: %llx, " [Arg.num last_range]
  let byte_index ← ack_blocks bytes mm num_block (num_block + 1) 0 byte_index 0
  let byte_index := if num_ts > 0 then byte_index + (2 + num_ts * 3) else byte_index
  if byte_index > bytes_max then do
    fprintf "malformed!\n" []
    return bytes_max
  else do
    fprintf "\n" []
    return byte_index

/-- The function `picoquic_log_ack_frame`: the header bytes and the size check, then
`ack_decode`.  The value returned is `bytes_max` on the two early returns. -/
def picoquic_log_ack_frame (bytes : Ptr) (bytes_max : Nat) : M Nat := do
  let byte_index := 1
  let first_byte ← read bytes 0
  let has_num_block := (first_byte >>> 4) &&& 1
  let ll := (first_byte >>> 2) &&& 3
  let mm := first_byte &&& 3
  if bytes_max < 3 then do
    fprintf "    Malformed ACK frame\n" []
    return bytes_max
  else do
    let (num_block, byte_index) ←
      if has_num_block ≠ 0 then do
        let n ← read bytes byte_index
        pure (n, byte_index + 1)
      else
        pure (0, byte_index)
    let num_ts ← read bytes byte_index
    let byte_index := byte_index + 1
    -- Check the size first
    let min_size := ack_min_size ll mm num_block num_ts byte_index
    if min_size > bytes_max then do
      fprintf "    Malformed ACK, requires %d bytes out of %d\n" [Arg.num min_size, Arg.num bytes_max]
      return bytes_max
    else
      -- Now that the size is good, print it
      ack_decode bytes bytes_max ll mm num_block num_ts byte_index

/-! ## Frame sequences -/

/-- The table `picoquic_log_frame_names`. -/
def picoquic_log_frame_names : List String :=
  [ "Padding",
    "CONNECTION_CLOSE",
    "RST_STREAM",
    "GOAWAY",
    "MAX_DATA",
    "MAX_STREAM_DATA",
    "MAX_STREAM_ID",
    "PING",
    "BLOCKED",
    "STREAM_BLOCKED",
    "STREAM_ID_NEEDED",
    "NEW_CONNECTION_ID" ]

/-- The constant `picoquic_nb_log_frame_names`: the number of entries of the table. -/
def picoquic_nb_log_frame_names : Nat := picoquic_log_frame_names.length

/-- The padding loop of `picoquic_log_frames`:
`while (bytes[byte_index] == 0) { byte_index++; nb_pad++; }`.
The value returned is the pair `(byte_index, nb_pad)` after the loop. -/
def padding_run (bytes : Ptr) : Nat → Nat → Nat → M (Nat × Nat)
  | 0, _, _ => outOfFuel
  | fuel + 1, byte_index, nb_pad => do
    let b ← read bytes byte_index
    if b = 0 then
      padding_run bytes fuel (byte_index + 1) (nb_pad + 1)
    else
      return (byte_index, nb_pad)

/-- The statement `byte_index += n` for the `size_t` cursor (64 bits) and an `int` value
`n`: `n` is converted to `size_t` before the addition, so a negative `n` adds
`2 ^ 64 - |n|`, modulo `2 ^ 64`.  For `n >= 0` the sum is the natural number
`byte_index + n`, as for the other sums of `size_t` values. -/
def size_t_add_int (byte_index : Nat) (n : Int) : Nat :=
  if 0 ≤ n then byte_index + n.toNat else (byte_index + (2 ^ 64 - n.natAbs)) % 2 ^ 64

/-- The body of the `while (byte_index < length)` loop of `picoquic_log_frames`, entered
with `byte_index < length`; the value returned is `byte_index` at the end of the body.
The padding loop gets a budget of one iteration per byte of the buffer plus one: an
iteration that continues has read a zero byte inside the buffer at a fresh index. -/
def picoquic_log_frames_body (bytes : Ptr) (length byte_index : Nat) : M Nat := do
  let b ← read bytes byte_index
  if b ≥ 0xC0 then do
    let n ← picoquic_log_stream_frame (bytes.add byte_index) (length - byte_index)
    return size_t_add_int byte_index n
  else do
    let b ← read bytes byte_index
    if b > 0xA0 then do
      let n ← picoquic_log_ack_frame (bytes.add byte_index) (length - byte_index)
      return byte_index + n
    else do
      let b ← read bytes byte_index
      if b = 0 then do
        let (byte_index, nb_pad) ← padding_run bytes (bytes.buf.length + 1) byte_index 0
        fprintf "Padding, %d bytes\n" [Arg.num nb_pad]
        return byte_index
      else do
        let frame_id ← read bytes byte_index
        if h : frame_id < picoquic_nb_log_frame_names then
          fprintf "    %s frame\n" [Arg.str (picoquic_log_frame_names.get ⟨frame_id, h⟩)]
        else
          fprintf "    Unknown frame, type: %x\n" [Arg.num frame_id]
        match frame_id with
        | 0x02 => return byte_index + 7
        | _ => return length

/-- The loop `while (byte_index < length) { ... }` of `picoquic_log_frames`; the value
returned is `byte_index` when the loop is left. -/
def picoquic_log_frames_loop (bytes : Ptr) (length : Nat) : Nat → Nat → M Nat
  | 0, _ => outOfFuel
  | fuel + 1, byte_index =>
    if byte_index < length then do
      let byte_index ← picoquic_log_frames_body bytes length byte_index
      picoquic_log_frames_loop bytes length fuel byte_index
    else
      return byte_index

/-- The function `picoquic_log_frames`.  The loop is given a budget of `length + 1` tests
of its condition: what a pass does depends on the cursor only, so a run that leaves the
loop enters it at most once at each cursor below `length`. -/
def picoquic_log_frames (bytes : Ptr) (length : Nat) : M Unit := do
  let _ ← picoquic_log_frames_loop bytes length (length + 1) 0
  return ()

/-! ## The text written by a `fprintf` call -/

/-- Left padding of a converted value to the field width. -/
def padField (zero : Bool) (width : Nat) (s : List Char) : List Char :=
  List.replicate (width - s.length) (if zero then '0' else ' ') ++ s

/-- One conversion: `d` prints the low 32 bits of the argument as a signed `int`,
`u` and `x` print the low 32 bits (64 bits after `ll`) in decimal and in lower-case
hexadecimal, `s` prints a string. -/
def convert (zero : Bool) (width : Nat) (long : Bool) (c : Char) (a : Arg) : List Char :=
  match a with
  | Arg.num n =>
    let word := n % 2 ^ (if long then 64 else 32)
    if c = 'd' then
      if word < 2 ^ (if long then 63 else 31) then padField zero width (Nat.toDigits 10 word)
      else padField zero width ('-' :: Nat.toDigits 10 (2 ^ (if long then 64 else 32) - word))
    else if c = 'u' then padField zero width (Nat.toDigits 10 word)
    else if c = 'x' then padField zero width (Nat.toDigits 16 word)
    else []
  | Arg.str s => if c = 's' then padField false width s.data else []

/-- The decimal field width at the head of a conversion specification. -/
def fieldWidth : List Char → Nat → Nat × List Char
  | [], w => (w, [])
  | c :: cs, w => if c.isDigit then fieldWidth cs (10 * w + (c.toNat - 48)) else (w, c :: cs)

/-- Expansion of a format string: the budget is one step per character. -/
def expand : Nat → List Char → List Arg → List Char
  | 0, _, _ => []
  | _ + 1, [], _ => []
  | fuel + 1, c :: cs, args =>
    if c = '%' then
      let (zero, cs) := match cs with
        | d :: ds => if d = '0' then (true, ds) else (false, d :: ds)
        | [] => (false, [])
      let (width, cs) := fieldWidth cs 0
      let (long, cs) := match cs with
        | l1 :: l2 :: ds => if l1 = 'l' ∧ l2 = 'l' then (true, ds) else (false, l1 :: l2 :: ds)
        | ds => (false, ds)
      match cs, args with
      | k :: ks, a :: as => convert zero width long k a ++ expand fuel ks as
      | _, _ => []
    else
      c :: expand fuel cs args

/-- The text written by one `fprintf` call. -/
def Printf.text (p : Printf) : String :=
  String.mk (expand p.fmt.length p.fmt.data p.args)

/-- The text written by a sequence of `fprintf` calls. -/
def render (out : List Printf) : String :=
  String.join (out.map Printf.text)

/-! ## Field widths and field values, as the specification words them -/

/-- Width of the stream identifier: one plus bits 3-4 of the tag byte. -/
def idWidth (t : Nat) : Nat := 1 + t / 8 % 4

/-- Width of the stream offset, chosen by bits 1-2 of the tag byte among 0, 2, 4 and 8. -/
def offsetWidth (t : Nat) : Nat :=
  if t / 2 % 4 = 0 then 0 else if t / 2 % 4 = 1 then 2 else if t / 2 % 4 = 2 then 4 else 8

/-- The explicit-length flag: bit 0 of the tag byte. -/
def explicitLength (t : Nat) : Bool := t % 2 = 1

/-- The big-endian value of a byte string. -/
def beValue (bs : List (Fin 256)) : Nat := bs.foldl (fun acc b => acc * 256 + b.val) 0

/-- The big-endian value of the `n` bytes of `buf` that start at index `i`. -/
def field (buf : List (Fin 256)) (i n : Nat) : Nat := beValue ((buf.drop i).take n)

/-- The `fprintf` calls that preview payload bytes, one `%02x` per byte. -/
def hexPreview (bs : List (Fin 256)) : List Printf :=
  bs.map (fun b => ⟨"%02x", [Arg.num b.val]⟩)

/-- The `fprintf` call that starts a stream frame line. -/
def streamLine (sid off len : Nat) : Printf :=
  ⟨"    Stream %d, offset %llu, length %d", [Arg.num sid, Arg.num off, Arg.num len]⟩

/-- Width of the largest-acknowledged field of an ack frame, chosen by bits 2-3 of the tag
byte among 1, 2, 4 and 8. -/
def largestWidth (t : Nat) : Nat := 2 ^ (t / 4 % 4)

/-- Width of every range field of an ack frame, chosen by bits 0-1 of the tag byte among
1, 2, 4 and 8. -/
def rangeWidth (t : Nat) : Nat := 2 ^ (t % 4)

/-- The flag of an ack tag byte saying that a block-count byte follows: bit 4. -/
def hasBlockCount (t : Nat) : Bool := t / 16 % 2 = 1

/-- Bytes taken by the tag, the optional block-count byte and the timestamp-count byte. -/
def ackHeader (t : Nat) : Nat := 1 + (if hasBlockCount t then 1 else 0) + 1

/-- The total size an ack frame requires: header, largest field, 2-byte delay, first range,
`num_block` blocks of one gap byte and one range, and the timestamp section of
`2 + 3 * num_ts` bytes when `num_ts > 0`. -/
def ackRequired (t num_block num_ts : Nat) : Nat :=
  ackHeader t + largestWidth t + 2 + rangeWidth t + num_block * (1 + rangeWidth t)
    + (if num_ts > 0 then 2 + 3 * num_ts else 0)

/-- The block count of the ack frame at the head of `bytes`: the byte after the tag when
the tag announces one, zero otherwise (and zero when the slice ends before that byte). -/
def ackNumBlock (bytes : List (Fin 256)) : Nat :=
  if hasBlockCount (field bytes 0 1) then field bytes 1 1 else 0

/-- The timestamp count of the ack frame at the head of `bytes`: the last header byte
(zero when the slice ends before that byte). -/
def ackNumTs (bytes : List (Fin 256)) : Nat :=
  field bytes (ackHeader (field bytes 0 1) - 1) 1

/-! ## Properties of a run: budget, returned value and malformed reports -/

/-- The `fprintf` calls by which the frame decoders report a malformed frame. -/
def malformedText (q : Printf) : Prop :=
  q.fmt = "    Malformed stream frame.\n" ∨ q.fmt = ", malformed!\n"
    ∨ q.fmt = "    Malformed ACK frame\n"
    ∨ q.fmt = "    Malformed ACK, requires %d bytes out of %d\n" ∨ q.fmt = "malformed!\n"

/-- Some call of the list reports a malformed frame. -/
def reportsMalformed (out : List Printf) : Prop := ∃ q ∈ out, malformedText q

/-- The property `m.Sat Q E` of a computation: from every trace, the run of `m` does not use
up an iteration budget; when it returns `a`, then `Q a` holds, the run has only added
`fprintf` calls to the output, and if one of the added calls reports a malformed frame then
`E a` holds. -/
def M.Sat {α : Type} (m : M α) (Q E : α → Prop) : Prop :=
  ∀ s : Trace,
    match m s with
    | (Outcome.ret a, s1) =>
      Q a ∧ ∃ ext, s1.out = s.out ++ ext ∧ (reportsMalformed ext → E a)
    | (Outcome.oob, _) => True
    | (Outcome.fuel, _) => False

/-! ## Peer address and packet header lines -/

/-- Modelled from the spec: the peer network address handed to the logger, tagged IPv4 or
IPv6 (`struct sockaddr` with `sa_family`, seen as `sockaddr_in` or `sockaddr_in6`; these
types are declared outside the source file).  `in4` holds the four address bytes and the
two bytes of `sin_port` in network order; `in6` holds the 16 bytes of `sin6_addr`. -/
inductive sockaddr where
  | in4 (s_b1 s_b2 s_b3 s_b4 : Fin 256) (port_hi port_lo : Fin 256)
  | in6 (Byte : Fin 16 → Fin 256)

/-- Modelled from the spec: `ntohs` on the two bytes of a port in network order. -/
def ntohs (port_hi port_lo : Fin 256) : Nat := port_hi.val * 256 + port_lo.val

/-- The loop `for (int i = 0; i < 8; i++)` of `picoquic_log_packet_address`. -/
def address_groups (Byte : Fin 16 → Fin 256) : Nat → Nat → M Unit
  | 0, _ => outOfFuel
  | fuel + 1, i =>
    if h : i < 8 then do
      if i ≠ 0 then
        fprintf ":" []
      if (Byte ⟨2 * i, by omega⟩).val ≠ 0 then
        fprintf "%x%02x"
          [Arg.num (Byte ⟨2 * i, by omega⟩).val, Arg.num (Byte ⟨2 * i + 1, by omega⟩).val]
      else
        fprintf "%x" [Arg.num (Byte ⟨2 * i + 1, by omega⟩).val]
      address_groups Byte fuel (i + 1)
    else
      return ()

/-- The function `picoquic_log_packet_address` (its `cnx` argument is not used). -/
def picoquic_log_packet_address (addr_peer : sockaddr) (receiving : Nat) (length : Nat) :
    M Unit := do
  fprintf (if receiving ≠ 0 then "Receiving %d bytes from " else "Sending %d bytes to ")
    [Arg.num length]
  match addr_peer with
  | sockaddr.in4 s_b1 s_b2 s_b3 s_b4 port_hi port_lo =>
    fprintf "%d.%d.%d.%d:%d\n"
      [Arg.num s_b1.val, Arg.num s_b2.val, Arg.num s_b3.val, Arg.num s_b4.val,
        Arg.num (ntohs port_hi port_lo)]
  | sockaddr.in6 Byte => do
    address_groups Byte 9 0
    fprintf "\n" []

/-- The table `picoquic_ptype_names`. -/
def picoquic_ptype_names : List String :=
  [ "error",
    "version negotiation",
    "client initial",
    "server stateless",
    "server cleartext",
    "client cleartext",
    "0rtt protected",
    "1rtt protected phi0",
    "1rtt protected phi1",
    "public reset" ]

/-- The constant `picoquic_nb_ptype_names`. -/
def picoquic_nb_ptype_names : Nat := picoquic_ptype_names.length

/-- The function `picoquic_log_ptype_name`. -/
def picoquic_log_ptype_name (ptype : Nat) : String :=
  if h : ptype < picoquic_nb_ptype_names then picoquic_ptype_names.get ⟨ptype, h⟩
  else "unknown"

/-- Modelled from the spec: the parsed packet header (`picoquic_packet_header` of
`picoquic.h`, not part of the source file): packet-type tag, connection identifier, packet
number, protocol version, and the byte offset where the type-specific payload begins. -/
structure picoquic_packet_header where
  ptype : Nat
  cnx_id : Nat
  pn : Nat
  vn : Nat
  offset : Nat
  deriving DecidableEq, Repr

/-- The function `picoquic_log_packet_header`; `cnx_known` says that `cnx` is not `NULL`. -/
def picoquic_log_packet_header (cnx_known : Bool) (ph : picoquic_packet_header) : M Unit :=
  fprintf "    Type: %d(%s), CnxID: %llx%s, Seq: %x, Version %x\n"
    [Arg.num ph.ptype, Arg.str (picoquic_log_ptype_name ph.ptype), Arg.num ph.cnx_id,
      Arg.str (if cnx_known then "" else " (unknown)"), Arg.num ph.pn, Arg.num ph.vn]

/-- The loop `while (byte_index + 4 <= length)` of `picoquic_log_negotiation_packet`. -/
def negotiation_versions (bytes : Ptr) (length : Nat) : Nat → Nat → M Unit
  | 0, _ => outOfFuel
  | fuel + 1, byte_index =>
    if byte_index + 4 ≤ length then do
      let vn ← PICOPARSE_32 (bytes.add byte_index) 0
      let byte_index := byte_index + 4
      fprintf "%x, " [Arg.num vn]
      negotiation_versions bytes length fuel byte_index
    else
      return ()

/-- The function `picoquic_log_negotiation_packet`; every pass of its loop moves
`byte_index` forward by 4, so `length + 1` tests of the condition are enough. -/
def picoquic_log_negotiation_packet (bytes : Ptr) (length : Nat)
    (ph : picoquic_packet_header) : M Unit := do
  let byte_index := ph.offset
  fprintf "    versions: " []
  negotiation_versions bytes length (length + 1) byte_index
  fprintf "\n" []

/-! ## Packets -/

/-- Modelled from the spec: the values of `picoquic_packet_type_enum` (declared in
`picoquic.h`), in the order of the packet-type name table. -/
def picoquic_packet_version_negotiation : Nat := 1

/-- Modelled from the spec: see `picoquic_packet_version_negotiation`. -/
def picoquic_packet_client_initial : Nat := 2

/-- Modelled from the spec: see `picoquic_packet_version_negotiation`. -/
def picoquic_packet_server_stateless : Nat := 3

/-- Modelled from the spec: see `picoquic_packet_version_negotiation`. -/
def picoquic_packet_server_cleartext : Nat := 4

/-- Modelled from the spec: see `picoquic_packet_version_negotiation`. -/
def picoquic_packet_client_cleartext : Nat := 5

/-- Modelled from the spec: see `picoquic_packet_version_negotiation`. -/
def picoquic_packet_0rtt_protected : Nat := 6

/-- Modelled from the spec: see `picoquic_packet_version_negotiation`. -/
def picoquic_packet_1rtt_protected_phi0 : Nat := 7

/-- Modelled from the spec: see `picoquic_packet_version_negotiation`. -/
def picoquic_packet_1rtt_protected_phi1 : Nat := 8

/-- Modelled from the spec: see `picoquic_packet_version_negotiation`. -/
def picoquic_packet_public_reset : Nat := 9

/-- Modelled from the spec: the external collaborators of the packet decoder, which are
not part of the source file.  `picoquic_parse_packet_header` returns its result code (0 on
success) and the header; the two connection lookups say whether a connection was found;
`fnv1a_check` returns the verified length, 0 on failure; `picoquic_aead_decrypt` returns
the decrypted bytes and their length, a length above the packet length on failure. -/
structure Collaborators where
  picoquic_parse_packet_header : Ptr → Nat → Nat × picoquic_packet_header
  picoquic_cnx_by_net : sockaddr → Bool
  picoquic_cnx_by_id : Nat → Bool
  fnv1a_check : Ptr → Nat → Nat
  picoquic_aead_decrypt : Ptr → Nat → picoquic_packet_header → List (Fin 256) × Nat

/-- The number of bits of `size_t`. -/
def size_t_bits : Nat := 64

/-- Subtraction of two `size_t` values: the result wraps around. -/
def size_t_sub (a b : Nat) : Nat := (a + (2 ^ size_t_bits - b % 2 ^ size_t_bits)) % 2 ^ size_t_bits

/-- The function `picoquic_log_decrypt_clear_text`; the value returned is `decoded_length`. -/
def picoquic_log_decrypt_clear_text (ext : Collaborators) (bytes : Ptr) (length : Nat) :
    M Nat := do
  -- Verify the checksum
  let decoded_length := ext.fnv1a_check bytes length
  if decoded_length = 0 then
    -- Incorrect checksum, drop and log.
    fprintf "    Error: cannot verify the FNV1A checksum.\n" []
  else
    fprintf "    FNV1A checksum is correct (%d bytes).\n" [Arg.num decoded_length]
  return decoded_length

/-- The function `picoquic_log_decrypt_encrypted`: the decrypted copy is a buffer of its
own. -/
def picoquic_log_decrypt_encrypted (ext : Collaborators) (bytes : Ptr) (length : Nat)
    (ph : picoquic_packet_header) : M Unit := do
  let (decrypted, decrypted_length) :=
    ext.picoquic_aead_decrypt (bytes.add ph.offset) (size_t_sub length ph.offset) ph
  if decrypted_length > length then
    fprintf "    Decryption failed!\n" []
  else do
    fprintf "    Decrypted %d bytes\n" [Arg.num decrypted_length]
    picoquic_log_frames ⟨decrypted, 0⟩ decrypted_length

/-- The function `picoquic_log_packet`. -/
def picoquic_log_packet (ext : Collaborators) (addr_peer : sockaddr) (receiving : Nat)
    (bytes : Ptr) (length : Nat) : M Unit := do
  -- first log line
  picoquic_log_packet_address addr_peer receiving length
  -- Parse the clear text header
  let (ret, ph) := ext.picoquic_parse_packet_header bytes length
  if ret ≠ 0 then
    -- packet does not even parse
    fprintf "   Cannot parse the packet header.\n" []
  else do
    let cnx := ext.picoquic_cnx_by_net addr_peer
    let cnx := if cnx = false ∧ ph.cnx_id ≠ 0 then ext.picoquic_cnx_by_id ph.cnx_id else cnx
    picoquic_log_packet_header cnx ph
    if ph.ptype = picoquic_packet_version_negotiation then
      -- log version negotiation
      picoquic_log_negotiation_packet bytes length ph
    else if ph.ptype = picoquic_packet_client_initial
        ∨ ph.ptype = picoquic_packet_server_cleartext
        ∨ ph.ptype = picoquic_packet_client_cleartext then do
      -- log clear text packet
      let decoded_length ← picoquic_log_decrypt_clear_text ext bytes length
      if decoded_length > 0 then
        -- log the frames
        picoquic_log_frames (bytes.add ph.offset) (size_t_sub decoded_length ph.offset)
    else if ph.ptype = picoquic_packet_1rtt_protected_phi0
        ∨ ph.ptype = picoquic_packet_1rtt_protected_phi1 then do
      if receiving ≠ 0 then
        picoquic_log_decrypt_encrypted ext bytes length ph
    else
      -- server stateless, 0-rtt, public reset, default: nothing is logged
      pure ()
  fprintf "\n" []

/-- The `fprintf` call that starts an ack frame line. -/
def ackLine (num_block num_ts : Nat) : Printf :=
  ⟨"    ACK (nb=%d, nt=%d),", [Arg.num num_block, Arg.num num_ts]⟩

/-- The `fprintf` call that renders the largest acknowledged value `v`, for the
largest-width selector `ll` (bits 2-3 of the tag byte). -/
def largestCall (ll v : Nat) : Printf :=
  if ll = 0 then ⟨"Largest = %02x, ", [Arg.num (v % 2 ^ 8)]⟩
  else if ll = 1 then ⟨"Largest = %04x, ", [Arg.num (v % 2 ^ 16)]⟩
  else if ll = 2 then ⟨"Largest = %08x, ", [Arg.num (v % 2 ^ 32)]⟩
  else ⟨"Largest = %llx, ", [Arg.num v]⟩

/-- The `fprintf` call that renders the first range of an ack frame. -/
def firstRangeCall (v : Nat) : Printf := ⟨"range: %llx, ", [Arg.num v]⟩

/-- The `fprintf` call that renders one additional ack block. -/
def blockCall (gap range : Nat) : Printf :=
  ⟨"gap: %llx, range: %llx, ", [Arg.num gap, Arg.num range]⟩

/-- The value of group `k` of an IPv6 address: the 16-bit big-endian value of bytes `2k` and
`2k + 1`. -/
def groupValue (Byte : Fin 16 → Fin 256) (k : Fin 8) : Nat :=
  (Byte ⟨2 * k.val, by omega⟩).val * 256 + (Byte ⟨2 * k.val + 1, by omega⟩).val

/-- The `fprintf` call that renders group `k` of an IPv6 address. -/
def groupCall (Byte : Fin 16 → Fin 256) (k : Fin 8) : Printf :=
  if (Byte ⟨2 * k.val, by omega⟩).val ≠ 0 then
    ⟨"%x%02x",
      [Arg.num (Byte ⟨2 * k.val, by omega⟩).val, Arg.num (Byte ⟨2 * k.val + 1, by omega⟩).val]⟩
  else
    ⟨"%x", [Arg.num (Byte ⟨2 * k.val + 1, by omega⟩).val]⟩

/-- The minimal-length lower-case hexadecimal numeral of `v`: no leading zero, and the
single digit `0` for zero. -/
def hexNumeral (v : Nat) : String := String.mk (Nat.toDigits 16 v)

/-- The value of a lower-case hexadecimal digit. -/
def hexDigitValue (c : Char) : Nat :=
  if c.toNat < 58 then c.toNat - 48 else c.toNat - 87

/-- The value of a string of lower-case hexadecimal digits, most significant digit first. -/
def hexValue (ds : List Char) : Nat := ds.foldl (fun acc c => acc * 16 + hexDigitValue c) 0

/-! ## Basic facts about the monad, the bit fields and the field values -/

theorem bind_apply {α β : Type} (m : M α) (f : α → M β) (s : Trace) :
    (m >>= f) s = match m s with
      | (Outcome.ret a, s1) => f a s1
      | (Outcome.oob, s1) => (Outcome.oob, s1)
      | (Outcome.fuel, s1) => (Outcome.fuel, s1) := rfl

theorem pure_apply {α : Type} (a : α) (s : Trace) : (pure a : M α) s = (Outcome.ret a, s) := rfl

theorem fprintf_apply (fmt : String) (args : List Arg) (s : Trace) :
    fprintf fmt args s = (Outcome.ret (), ⟨s.out ++ [⟨fmt, args⟩], s.reads⟩) := rfl

theorem shr3_and3 (t : Nat) : (t >>> 3) &&& 3 = t / 8 % 4 := by
  rw [Nat.shiftRight_eq_div_pow]; exact Nat.and_pow_two_sub_one_eq_mod _ 2

theorem shr1_and3 (t : Nat) : (t >>> 1) &&& 3 = t / 2 % 4 := by
  rw [Nat.shiftRight_eq_div_pow]; exact Nat.and_pow_two_sub_one_eq_mod _ 2

theorem shr2_and3 (t : Nat) : (t >>> 2) &&& 3 = t / 4 % 4 := by
  rw [Nat.shiftRight_eq_div_pow]; exact Nat.and_pow_two_sub_one_eq_mod _ 2

theorem shr4_and1 (t : Nat) : (t >>> 4) &&& 1 = t / 16 % 2 := by
  rw [Nat.shiftRight_eq_div_pow]; exact Nat.and_pow_two_sub_one_eq_mod _ 1

theorem and3 (t : Nat) : t &&& 3 = t % 4 := Nat.and_pow_two_sub_one_eq_mod _ 2

theorem and1 (t : Nat) : t &&& 1 = t % 2 := Nat.and_pow_two_sub_one_eq_mod _ 1

theorem beValue_append (a b : List (Fin 256)) :
    beValue (a ++ b) = beValue a * 256 ^ b.length + beValue b := by
  induction b using List.reverseRecOn with
  | nil => simp [beValue]
  | append_singleton b x ih =>
    rw [← List.append_assoc]
    simp only [beValue, List.foldl_append, List.foldl_cons, List.foldl_nil, List.length_append,
      List.length_singleton] at ih ⊢
    rw [ih, pow_succ]; ring

theorem field_zero (buf : List (Fin 256)) (i : Nat) : field buf i 0 = 0 := by
  simp [field, beValue]

theorem field_add (buf : List (Fin 256)) (i m n : Nat) (h : i + m + n ≤ buf.length) :
    field buf i (m + n) = field buf i m * 256 ^ n + field buf (i + m) n := by
  unfold field
  rw [List.take_add, beValue_append, List.drop_drop]
  have hl : (List.take n (List.drop (i + m) buf)).length = n := by
    simp only [List.length_take, List.length_drop]; omega
  rw [hl]

theorem field_one (buf : List (Fin 256)) (i : Nat) (h : i < buf.length) :
    field buf i 1 = (buf.get ⟨i, h⟩).val := by
  unfold field
  rw [List.drop_eq_getElem_cons h]
  simp only [beValue, List.take_succ_cons, List.take_zero, List.foldl_cons, List.foldl_nil,
    List.get_eq_getElem]
  omega

theorem read_apply (p : Ptr) (i : Nat) (s : Trace) (h : p.base + i < p.buf.length) :
    read p i s = (Outcome.ret (field p.buf (p.base + i) 1), ⟨s.out, s.reads ++ [p.base + i]⟩) := by
  unfold read
  rw [List.getElem?_eq_getElem h, field_one _ _ h]
  rfl

theorem read_oob (p : Ptr) (i : Nat) (s : Trace) (h : p.buf.length ≤ p.base + i) :
    read p i s = (Outcome.oob, ⟨s.out, s.reads ++ [p.base + i]⟩) := by
  unfold read
  rw [List.getElem?_eq_none h]

theorem PICOPARSE_16_apply (p : Ptr) (i : Nat) (s : Trace) (h : p.base + i + 2 ≤ p.buf.length) :
    PICOPARSE_16 p i s
      = (Outcome.ret (field p.buf (p.base + i) 2), ⟨s.out, s.reads ++ List.range' (p.base + i) 2⟩) := by
  unfold PICOPARSE_16
  simp only [bind_apply, pure_apply]
  rw [read_apply p i s (by omega)]
  simp only []
  rw [read_apply p (i + 1) _ (by omega)]
  have h1 := field_add p.buf (p.base + i) 1 1 (by omega)
  simp only [List.range', List.append_assoc, List.singleton_append, Nat.reduceAdd] at *
  simp [h1, Nat.add_assoc]

theorem PICOPARSE_24_apply (p : Ptr) (i : Nat) (s : Trace) (h : p.base + i + 3 ≤ p.buf.length) :
    PICOPARSE_24 p i s
      = (Outcome.ret (field p.buf (p.base + i) 3), ⟨s.out, s.reads ++ List.range' (p.base + i) 3⟩) := by
  unfold PICOPARSE_24
  simp only [bind_apply, pure_apply]
  rw [PICOPARSE_16_apply p i s (by omega)]
  simp only []
  rw [read_apply p (i + 2) _ (by omega)]
  have h1 := field_add p.buf (p.base + i) 2 1 (by omega)
  simp only [List.range', List.append_assoc, List.singleton_append, List.cons_append,
    List.nil_append, Nat.reduceAdd] at *
  simp [h1, Nat.add_assoc]

theorem PICOPARSE_32_apply (p : Ptr) (i : Nat) (s : Trace) (h : p.base + i + 4 ≤ p.buf.length) :
    PICOPARSE_32 p i s
      = (Outcome.ret (field p.buf (p.base + i) 4), ⟨s.out, s.reads ++ List.range' (p.base + i) 4⟩) := by
  unfold PICOPARSE_32
  simp only [bind_apply, pure_apply]
  rw [PICOPARSE_16_apply p i s (by omega)]
  simp only []
  rw [PICOPARSE_16_apply p (i + 2) _ (by omega)]
  have h1 := field_add p.buf (p.base + i) 2 2 (by omega)
  simp only [List.range', List.append_assoc, List.singleton_append, List.cons_append,
    List.nil_append, Nat.reduceAdd] at *
  simp [h1, Nat.add_assoc]

theorem PICOPARSE_64_apply (p : Ptr) (i : Nat) (s : Trace) (h : p.base + i + 8 ≤ p.buf.length) :
    PICOPARSE_64 p i s
      = (Outcome.ret (field p.buf (p.base + i) 8), ⟨s.out, s.reads ++ List.range' (p.base + i) 8⟩) := by
  unfold PICOPARSE_64
  simp only [bind_apply, pure_apply]
  rw [PICOPARSE_32_apply p i s (by omega)]
  simp only []
  rw [PICOPARSE_32_apply p (i + 4) _ (by omega)]
  have h1 := field_add p.buf (p.base + i) 4 4 (by omega)
  simp only [List.range', List.append_assoc, List.singleton_append, List.cons_append,
    List.nil_append, Nat.reduceAdd] at *
  simp [h1, Nat.add_assoc]

/-- The preview loop prints the first `min 8 data_length` bytes from `byte_index` on,
those after the first `i`, and reads exactly them. -/
theorem stream_preview_apply (p : Ptr) (byte_index data_length : Nat) :
    ∀ (fuel i : Nat) (s : Trace), min 8 data_length - i < fuel →
      p.base + byte_index + min 8 data_length ≤ p.buf.length →
      stream_preview p byte_index data_length fuel i s
        = (Outcome.ret (),
            ⟨s.out ++ hexPreview ((p.buf.drop (p.base + byte_index + i)).take (min 8 data_length - i)),
             s.reads ++ List.range' (p.base + byte_index + i) (min 8 data_length - i)⟩) := by
  intro fuel
  induction fuel with
  | zero => intro i s h1 h2; omega
  | succ fuel ih =>
    intro i s h1 h2
    unfold stream_preview
    by_cases hc : i < 8 ∧ i < data_length
    · have hi : i < min 8 data_length := by omega
      have hb : p.base + (byte_index + i) < p.buf.length := by omega
      simp only [hc, and_self, if_true, bind_apply, fprintf_apply]
      rw [read_apply p (byte_index + i) s hb]
      simp only []
      rw [ih (i + 1) _ (by omega) h2]
      have e : min 8 data_length - i = (min 8 data_length - (i + 1)) + 1 := by omega
      have hb2 : p.base + byte_index + i < p.buf.length := by omega
      rw [e, List.drop_eq_getElem_cons hb2, List.take_succ_cons, List.range'_succ]
      simp only [hexPreview, List.map_cons, List.append_assoc, List.singleton_append,
        Nat.add_assoc, field_one _ _ hb, List.get_eq_getElem]
    · have hi : min 8 data_length - i = 0 := by omega
      simp only [hc, if_false, pure_apply, hi, List.take_zero, hexPreview, List.map_nil,
        List.append_nil, List.range'_zero]

set_option maxHeartbeats 1000000 in
/-- What `picoquic_log_stream_frame` does on a slice of `bytes_max >= 1` bytes that lies
inside the buffer: the value of `byte_index` before the `return`, the `fprintf` calls and
the indices read, in the three cases (fixed fields do not fit, declared data overruns the
slice, frame fits). -/
theorem stream_frame_apply (p : Ptr) (bytes_max : Nat) (s : Trace) (h1 : 1 ≤ bytes_max)
    (hb : p.base + bytes_max ≤ p.buf.length) :
    stream_frame_byte_index p bytes_max s =
      (let t := field p.buf p.base 1
       let fixed := 1 + idWidth t + offsetWidth t + (if explicitLength t then 2 else 0)
       if bytes_max < fixed then
         (Outcome.ret bytes_max,
           ⟨s.out ++ [⟨"    Malformed stream frame.\n", []⟩], s.reads ++ [p.base]⟩)
       else
         let sid := field p.buf (p.base + 1) (idWidth t)
         let off := field p.buf (p.base + 1 + idWidth t) (offsetWidth t)
         let len := if explicitLength t then field p.buf (p.base + 1 + idWidth t + offsetWidth t) 2
           else bytes_max - fixed
         if fixed + len > bytes_max then
           (Outcome.ret bytes_max,
             ⟨s.out ++ [streamLine sid off len, ⟨", malformed!\n", []⟩],
              s.reads ++ List.range' p.base fixed⟩)
         else
           (Outcome.ret (fixed + len),
             ⟨s.out ++ ([streamLine sid off len, ⟨": ", []⟩]
                ++ hexPreview ((p.buf.drop (p.base + fixed)).take (min 8 len))
                ++ [⟨"%s\n", [Arg.str (if len > 8 then "..." else "")]⟩]),
              s.reads ++ (List.range' p.base fixed ++ List.range' (p.base + fixed) (min 8 len))⟩)) := by
  unfold stream_frame_byte_index
  simp only [bind_apply]
  rw [read_apply p 0 s (by omega)]
  simp only [Nat.add_zero, shr3_and3, shr1_and3, and1]
  generalize field p.buf p.base 1 = t
  obtain ⟨a, ha⟩ : ∃ a, t / 8 % 4 = a := ⟨_, rfl⟩
  obtain ⟨b, hb2⟩ : ∃ b, t / 2 % 4 = b := ⟨_, rfl⟩
  obtain ⟨c, hc⟩ : ∃ c, t % 2 = c := ⟨_, rfl⟩
  have ha4 : a < 4 := by omega
  have hb4 : b < 4 := by omega
  have hc2 : c < 2 := by omega
  simp only [idWidth, offsetWidth, explicitLength, ha, hb2, hc]
  interval_cases a <;> interval_cases b <;> interval_cases c
  all_goals simp only [Nat.reduceAdd, Nat.reduceMul, if_true, if_false, Nat.reduceEqDiff,
    decide_True, decide_False, Nat.zero_ne_one, Nat.add_zero, Bool.false_eq_true, Nat.add_assoc]
  all_goals split_ifs
  all_goals first
    | omega
    | (simp (disch := omega) only [bind_apply, pure_apply, fprintf_apply, read_apply,
        PICOPARSE_16_apply, PICOPARSE_24_apply, PICOPARSE_32_apply, PICOPARSE_64_apply,
        stream_preview_apply, if_pos, if_neg, field_zero, streamLine,
        List.range', List.append_assoc, List.singleton_append, List.cons_append, List.nil_append,
        Nat.add_assoc, Nat.reduceAdd, Nat.add_zero, Nat.sub_zero, gt_iff_lt])

theorem size_t_to_int_of_lt (n : Nat) (h : n < 2 ^ 31) : size_t_to_int n = (n : Int) := by
  unfold size_t_to_int
  have e : n % 2 ^ 32 = n := Nat.mod_eq_of_lt (by omega)
  rw [e, if_pos h]

theorem size_t_add_int_nat (i n : Nat) : size_t_add_int i (n : Int) = i + n := by
  unfold size_t_add_int
  rw [if_pos (Int.natCast_nonneg n), Int.toNat_natCast]

/-- The value returned by `picoquic_log_stream_frame` is the conversion to `int` of the
value of `byte_index`. -/
theorem stream_frame_ret (p : Ptr) (bytes_max c : Nat) (s s1 : Trace)
    (h : stream_frame_byte_index p bytes_max s = (Outcome.ret c, s1)) :
    picoquic_log_stream_frame p bytes_max s = (Outcome.ret (size_t_to_int c), s1) := by
  unfold picoquic_log_stream_frame
  rw [bind_apply, h]
  rfl

theorem stream_frame_ret_inv (p : Ptr) (bytes_max : Nat) (s : Trace) (n : Int) (s1 : Trace)
    (h : picoquic_log_stream_frame p bytes_max s = (Outcome.ret n, s1)) :
    ∃ c, stream_frame_byte_index p bytes_max s = (Outcome.ret c, s1) ∧ n = size_t_to_int c := by
  unfold picoquic_log_stream_frame at h
  rw [bind_apply] at h
  revert h
  rcases stream_frame_byte_index p bytes_max s with ⟨o, s2⟩
  cases o with
  | ret c =>
    intro h
    have h2 : (Outcome.ret (size_t_to_int c), s2) = (Outcome.ret n, s1) := h
    injection h2 with h3 h4
    injection h3 with h5
    exact ⟨c, by rw [h4], h5.symm⟩
  | oob => intro h; cases h
  | fuel => intro h; cases h

theorem beValue_lt (bs : List (Fin 256)) : beValue bs < 256 ^ bs.length := by
  induction bs using List.reverseRecOn with
  | nil => simp [beValue]
  | append_singleton bs x ih =>
    have hx : beValue [x] = x.val := by simp [beValue]
    have hxl := x.isLt
    rw [beValue_append, hx]
    simp only [List.length_append, List.length_singleton, pow_one, pow_succ]
    omega

theorem field_lt (buf : List (Fin 256)) (i n : Nat) : field buf i n < 256 ^ n := by
  unfold field
  have h1 := beValue_lt ((buf.drop i).take n)
  have h2 : ((buf.drop i).take n).length ≤ n := by
    rw [List.length_take]; exact Nat.min_le_left _ _
  exact Nat.lt_of_lt_of_le h1 (Nat.pow_le_pow_right (by decide) h2)

theorem field_head (t : Fin 256) (rest : List (Fin 256)) : field (t :: rest) 0 1 = t.val := by
  rw [field_one _ _ (by simp)]; rfl

theorem field_drop (buf : List (Fin 256)) (b i n : Nat) :
    field (buf.drop b) i n = field buf (b + i) n := by
  unfold field
  rw [List.drop_drop, Nat.add_comm]

/-- What `picoquic_log_ack_frame` does on a slice that is shorter than the size the frame
requires: one "Malformed ACK" line, only header bytes read, `bytes_max` returned. -/
theorem ack_frame_malformed_apply (p : Ptr) (bytes_max : Nat) (s : Trace) (h1 : 1 ≤ bytes_max)
    (hb : p.base + bytes_max ≤ p.buf.length)
    (h : bytes_max < ackRequired (field p.buf p.base 1) (ackNumBlock (p.buf.drop p.base))
          (ackNumTs (p.buf.drop p.base))) :
    picoquic_log_ack_frame p bytes_max s =
      (Outcome.ret bytes_max,
        if bytes_max < 3 then
          ⟨s.out ++ [⟨"    Malformed ACK frame\n", []⟩], s.reads ++ [p.base]⟩
        else
          ⟨s.out ++ [⟨"    Malformed ACK, requires %d bytes out of %d\n",
              [Arg.num (ackRequired (field p.buf p.base 1) (ackNumBlock (p.buf.drop p.base))
                  (ackNumTs (p.buf.drop p.base))),
                Arg.num bytes_max]⟩],
            s.reads ++ List.range' p.base (ackHeader (field p.buf p.base 1))⟩) := by
  have hreq : ∀ t nb nts : Nat,
      ack_min_size (t / 4 % 4) (t % 4) nb nts (ackHeader t) = ackRequired t nb nts := by
    intro t nb nts
    obtain ⟨b, hb2⟩ : ∃ b, t / 4 % 4 = b := ⟨_, rfl⟩
    obtain ⟨c, hc⟩ : ∃ c, t % 4 = c := ⟨_, rfl⟩
    have hb4 : b < 4 := by omega
    have hc4 : c < 4 := by omega
    simp only [ack_min_size, ackRequired, largestWidth, rangeWidth, hb2, hc]
    interval_cases b <;> interval_cases c <;> simp only [Nat.reducePow] <;> split_ifs <;> omega
  unfold picoquic_log_ack_frame
  simp only [bind_apply]
  rw [read_apply p 0 s (by omega)]
  simp only [Nat.add_zero, shr4_and1, shr2_and3, and3, and1, Nat.shiftRight_eq_div_pow,
    Nat.reducePow]
  by_cases h3 : bytes_max < 3
  · simp only [h3, if_true, bind_apply, fprintf_apply, pure_apply]
  · revert h
    simp only [ackNumBlock, ackNumTs, field_drop, Nat.add_zero, h3, if_false]
    generalize field p.buf p.base 1 = t
    intro h
    rw [← hreq] at h ⊢
    revert h
    simp only [ackHeader, hasBlockCount]
    obtain ⟨a, ha⟩ : ∃ a, t / 16 % 2 = a := ⟨_, rfl⟩
    have ha2 : a < 2 := by omega
    simp only [ha]
    interval_cases a
    all_goals simp only [Nat.reduceAdd, if_true, if_false,
      Nat.reduceEqDiff, decide_True, decide_False, Nat.zero_ne_one, Nat.add_zero,
      Bool.false_eq_true, ne_eq, not_true_eq_false, not_false_eq_true, Nat.add_sub_cancel,
      Nat.reduceSub, one_ne_zero]
    all_goals intro h
    all_goals simp (disch := omega) only [bind_apply, pure_apply, fprintf_apply, read_apply,
      field_zero, List.range', List.append_assoc, List.singleton_append, List.cons_append,
      List.nil_append, Nat.add_assoc, Nat.reduceAdd, Nat.add_zero, gt_iff_lt, if_pos]

/-- The run of `picoquic_log_frames` on the 10-byte buffer of the padding-then-stream
scenario. -/
theorem frames_scenario_run :
    (picoquic_log_frames
        ⟨[0x00, 0x00, 0x00, 0xC0, 0x05, 0x00, 0x00, 0x00, 0x00, 0x00], 0⟩ 10).run
      = (Outcome.ret (),
          ⟨[⟨"Padding, %d bytes\n", [Arg.num 3]⟩, streamLine 5 0 5, ⟨": ", []⟩,
            ⟨"%02x", [Arg.num 0]⟩, ⟨"%02x", [Arg.num 0]⟩, ⟨"%02x", [Arg.num 0]⟩,
            ⟨"%02x", [Arg.num 0]⟩, ⟨"%02x", [Arg.num 0]⟩, ⟨"%s\n", [Arg.str ""]⟩],
           [0, 0, 0, 0, 1, 2, 3, 3, 3, 4, 5, 6, 7, 8, 9]⟩) := by
  decide!

/-! ## The loop body of `picoquic_log_frames`, branch by branch -/

theorem read_get (p : Ptr) (i : Nat) (b : Fin 256) (s : Trace)
    (h : p.buf[p.base + i]? = some b) :
    read p i s = (Outcome.ret b.val, ⟨s.out, s.reads ++ [p.base + i]⟩) := by
  unfold read
  rw [h]

theorem body_stream_apply (p : Ptr) (length i : Nat) (b : Fin 256) (s : Trace)
    (h : p.buf[p.base + i]? = some b) (ht : 0xC0 ≤ b.val) :
    picoquic_log_frames_body p length i s
      = (do
          let n ← picoquic_log_stream_frame (p.add i) (length - i)
          pure (size_t_add_int i n)) ⟨s.out, s.reads ++ [p.base + i]⟩ := by
  unfold picoquic_log_frames_body
  simp only [bind_apply, read_get p i b _ h, ge_iff_le, ht, if_true, pure_apply]

theorem body_ack_apply (p : Ptr) (length i : Nat) (b : Fin 256) (s : Trace)
    (h : p.buf[p.base + i]? = some b) (ht : 0xA0 < b.val) (ht2 : b.val < 0xC0) :
    picoquic_log_frames_body p length i s
      = (do
          let n ← picoquic_log_ack_frame (p.add i) (length - i)
          pure (i + n)) ⟨s.out, s.reads ++ [p.base + i, p.base + i]⟩ := by
  unfold picoquic_log_frames_body
  have h1 : ¬ (192 ≤ b.val) := by omega
  simp only [bind_apply, read_get p i b _ h, ge_iff_le, h1, if_false, gt_iff_lt, ht, if_true,
    pure_apply, List.append_assoc, List.singleton_append]

theorem body_padding_apply (p : Ptr) (length i : Nat) (s : Trace)
    (h : p.buf[p.base + i]? = some 0) :
    picoquic_log_frames_body p length i s
      = (do
          let r ← padding_run p (p.buf.length + 1) i 0
          fprintf "Padding, %d bytes\n" [Arg.num r.2]
          pure r.1) ⟨s.out, s.reads ++ [p.base + i, p.base + i, p.base + i]⟩ := by
  unfold picoquic_log_frames_body
  simp only [bind_apply, read_get p i 0 _ h, ge_iff_le, if_false, gt_iff_lt, if_true,
    pure_apply, List.append_assoc, List.singleton_append, Nat.reduceLeDiff,
    Nat.not_lt_zero, Nat.reduceLT, fprintf_apply, Fin.val_zero]
  rfl

theorem body_other_apply (p : Ptr) (length i : Nat) (b : Fin 256) (s : Trace)
    (h : p.buf[p.base + i]? = some b) (ht : 0 < b.val) (ht2 : b.val ≤ 0xA0) :
    picoquic_log_frames_body p length i s
      = (Outcome.ret (if b.val = 0x02 then i + 7 else length),
          ⟨s.out ++ [if b.val ≤ 0x0b then
                ⟨"    %s frame\n", [Arg.str (picoquic_log_frame_names.getD b.val "")]⟩
              else ⟨"    Unknown frame, type: %x\n", [Arg.num b.val]⟩],
           s.reads ++ [p.base + i, p.base + i, p.base + i, p.base + i]⟩) := by
  unfold picoquic_log_frames_body
  have h1 : ¬ (192 ≤ b.val) := by omega
  have h2 : ¬ (160 < b.val) := by omega
  have h3 : ¬ (b.val = 0) := by omega
  simp only [bind_apply, read_get p i b _ h, ge_iff_le, h1, h2, h3, if_false, gt_iff_lt,
    pure_apply, List.append_assoc, List.singleton_append, List.cons_append, List.nil_append]
  generalize b.val = t at *
  have hnb : picoquic_nb_log_frame_names = 12 := rfl
  split
  · rename_i hn
    have hle : t ≤ 11 := by omega
    have hget : picoquic_log_frame_names.getD t "" = picoquic_log_frame_names.get ⟨t, hn⟩ := by
      rw [List.getD_eq_getElem _ _ hn]; rfl
    simp only [bind_apply, fprintf_apply, hle, if_true, hget]
    split
    · simp [pure_apply]
    · rename_i h2
      have : ¬ t = 2 := fun e => h2 e
      simp [pure_apply, this]
  · rename_i hn
    have hle : ¬ t ≤ 11 := by omega
    simp only [bind_apply, fprintf_apply, hle, if_false]
    split
    · omega
    · rename_i h2
      have : ¬ t = 2 := fun e => h2 e
      simp [pure_apply, this]

theorem padding_run_apply (p : Ptr) (b : Fin 256) :
    ∀ (K fuel byte_index nb_pad : Nat) (s : Trace), K < fuel →
      (∀ j, j < K → p.buf[p.base + (byte_index + j)]? = some 0) →
      p.buf[p.base + (byte_index + K)]? = some b → b ≠ 0 →
      padding_run p fuel byte_index nb_pad s
        = (Outcome.ret (byte_index + K, nb_pad + K),
            ⟨s.out, s.reads ++ List.range' (p.base + byte_index) (K + 1)⟩) := by
  intro K
  induction K with
  | zero =>
    intro fuel byte_index nb_pad s hf _ hb hnz
    obtain ⟨fuel, rfl⟩ : ∃ f, fuel = f + 1 := ⟨fuel - 1, by omega⟩
    unfold padding_run
    have hv : b.val ≠ 0 := fun e => hnz (Fin.ext e)
    simp only [bind_apply, read_get p byte_index b s (by simpa using hb), hv, if_false,
      pure_apply, Nat.add_zero, List.range', Nat.zero_add]
  | succ K ih =>
    intro fuel byte_index nb_pad s hf hz hb hnz
    obtain ⟨fuel, rfl⟩ : ∃ f, fuel = f + 1 := ⟨fuel - 1, by omega⟩
    unfold padding_run
    have h0 := hz 0 (by omega)
    simp only [bind_apply, read_get p byte_index 0 s (by simpa using h0), Fin.val_zero,
      if_true]
    rw [ih fuel (byte_index + 1) (nb_pad + 1) _ (by omega)
      (fun j hj => by have := hz (j + 1) (by omega); rw [← this]; congr 2; omega)
      (by rw [← hb]; congr 2; omega) hnz]
    have e : List.range' (p.base + byte_index) (K + 1 + 1)
        = (p.base + byte_index) :: List.range' (p.base + (byte_index + 1)) (K + 1) := by
      rw [List.range'_succ]; rfl
    rw [e]
    simp only [List.append_assoc, List.singleton_append]
    have e1 : byte_index + 1 + K = byte_index + (K + 1) := by omega
    have e2 : nb_pad + 1 + K = nb_pad + (K + 1) := by omega
    rw [e1, e2]

/-! ## Rules for `M.Sat` -/

theorem reportsMalformed_nil : ¬ reportsMalformed [] := by
  rintro ⟨q, hq, _⟩
  cases hq

theorem reportsMalformed_append (a b : List Printf) :
    reportsMalformed (a ++ b) ↔ reportsMalformed a ∨ reportsMalformed b := by
  unfold reportsMalformed
  simp only [List.mem_append]
  constructor
  · rintro ⟨q, hq | hq, hm⟩
    · exact Or.inl ⟨q, hq, hm⟩
    · exact Or.inr ⟨q, hq, hm⟩
  · rintro (⟨q, hq, hm⟩ | ⟨q, hq, hm⟩)
    · exact ⟨q, Or.inl hq, hm⟩
    · exact ⟨q, Or.inr hq, hm⟩

theorem reportsMalformed_singleton (q : Printf) : reportsMalformed [q] ↔ malformedText q := by
  unfold reportsMalformed
  simp

theorem sat_pure {α : Type} (a : α) (Q E : α → Prop) (h : Q a) : (pure a : M α).Sat Q E := by
  intro s
  exact ⟨h, [], by simp, fun hm => absurd hm reportsMalformed_nil⟩

theorem sat_mono {α : Type} (m : M α) (Q E Q1 E1 : α → Prop) (h : m.Sat Q E)
    (hQ : ∀ a, Q a → Q1 a) (hE : ∀ a, Q a → E a → E1 a) : m.Sat Q1 E1 := by
  intro s
  have hs := h s
  revert hs
  rcases m s with ⟨o, s1⟩
  cases o with
  | ret a =>
    rintro ⟨hq, ext, he, hm⟩
    exact ⟨hQ a hq, ext, he, fun h => hE a hq (hm h)⟩
  | oob => exact id
  | fuel => exact id

theorem sat_bind {α β : Type} (m : M α) (f : α → M β) (P : α → Prop) (Q E : β → Prop)
    (hm : m.Sat P (fun _ => False)) (hf : ∀ a, P a → (f a).Sat Q E) : (m >>= f).Sat Q E := by
  intro s
  have hs := hm s
  rw [bind_apply]
  revert hs
  rcases m s with ⟨o, s1⟩
  cases o with
  | ret a =>
    rintro ⟨hp, ext, he, hclean⟩
    have h2 := hf a hp s1
    revert h2
    simp only []
    rcases f a s1 with ⟨o2, s2⟩
    cases o2 with
    | ret b =>
      rintro ⟨hq, ext2, he2, hm2⟩
      refine ⟨hq, ext ++ ext2, by rw [he2, he, List.append_assoc], ?_⟩
      intro h
      rcases (reportsMalformed_append ext ext2).mp h with h | h
      · exact (hclean h).elim
      · exact hm2 h
    | oob => exact id
    | fuel => exact id
  | oob => exact id
  | fuel => exact id

theorem sat_read (p : Ptr) (i : Nat) (E : Nat → Prop) :
    (read p i).Sat (fun _ => p.base + i < p.buf.length) E := by
  intro s
  unfold read
  cases h : p.buf[p.base + i]? with
  | none => trivial
  | some b =>
    exact ⟨(List.getElem?_eq_some.mp h).1, [], by simp,
      fun hm => absurd hm reportsMalformed_nil⟩

theorem sat_fprintf (fmt : String) (args : List Arg) (Q E : Unit → Prop) (hQ : Q ())
    (h : malformedText ⟨fmt, args⟩ → E ()) : (fprintf fmt args).Sat Q E := by
  intro s
  exact ⟨hQ, [⟨fmt, args⟩], rfl, fun hm => h ((reportsMalformed_singleton _).mp hm)⟩

theorem sat_bind_tail {α β : Type} (m : M α) (f : α → M β) (P : α → Prop) (Q E : β → Prop)
    (hm : m.Sat P (fun _ => True))
    (hf : ∀ a, P a → (f a).Sat (fun b => Q b ∧ E b) (fun _ => True)) : (m >>= f).Sat Q E := by
  intro s
  have hs := hm s
  rw [bind_apply]
  revert hs
  rcases m s with ⟨o, s1⟩
  cases o with
  | ret a =>
    rintro ⟨hp, ext, he, _⟩
    have h2 := hf a hp s1
    revert h2
    simp only []
    rcases f a s1 with ⟨o2, s2⟩
    cases o2 with
    | ret b =>
      rintro ⟨hq, ext2, he2, _⟩
      exact ⟨hq.1, ext ++ ext2, by rw [he2, he, List.append_assoc], fun _ => hq.2⟩
    | oob => exact id
    | fuel => exact id
  | oob => exact id
  | fuel => exact id

theorem sat_map {α β : Type} (m : M α) (g : α → β) (P E0 : α → Prop) (Q E : β → Prop)
    (hm : m.Sat P E0) (hQ : ∀ a, P a → Q (g a)) (hE : ∀ a, P a → E0 a → E (g a)) :
    (m >>= fun a => (pure (g a) : M β)).Sat Q E := by
  intro s
  have hs := hm s
  rw [bind_apply]
  revert hs
  rcases m s with ⟨o, s1⟩
  cases o with
  | ret a =>
    rintro ⟨hp, ext, he, hm2⟩
    exact ⟨hQ a hp, ext, he, fun h => hE a hp (hm2 h)⟩
  | oob => exact id
  | fuel => exact id

/-- A malformed report followed by the return of `a`. -/
theorem sat_report {α : Type} (fmt : String) (args : List Arg) (a : α) (Q E : α → Prop)
    (hQ : Q a) (hE : E a) : (fprintf fmt args >>= fun _ => (pure a : M α)).Sat Q E :=
  sat_bind_tail _ _ (fun _ => True) Q E (sat_fprintf fmt args _ _ trivial (fun _ => trivial))
    (fun _ _ => sat_pure a _ _ ⟨hQ, hE⟩)

theorem sat_clean_bind {α β : Type} (m : M α) (f : α → M β) (Q E : β → Prop)
    (hm : m.Sat (fun _ => True) (fun _ => False)) (hf : ∀ a, (f a).Sat Q E) :
    (m >>= f).Sat Q E :=
  sat_bind m f (fun _ => True) Q E hm (fun a _ => hf a)

theorem sat_read_clean (p : Ptr) (i : Nat) :
    (read p i).Sat (fun _ => True) (fun _ => False) :=
  sat_mono _ _ _ _ _ (sat_read p i (fun _ => False)) (fun _ _ => trivial) (fun _ _ h => h)

theorem sat_fprintf_clean (fmt : String) (args : List Arg)
    (h : ¬ malformedText ⟨fmt, args⟩) :
    (fprintf fmt args).Sat (fun _ => True) (fun _ => False) :=
  sat_fprintf fmt args _ _ trivial h

theorem sat_PICOPARSE_16 (p : Ptr) (i : Nat) :
    (PICOPARSE_16 p i).Sat (fun _ => True) (fun _ => False) := by
  unfold PICOPARSE_16
  exact sat_clean_bind _ _ _ _ (sat_read_clean p i) fun _ =>
    sat_clean_bind _ _ _ _ (sat_read_clean p (i + 1)) fun _ => sat_pure _ _ _ trivial

theorem sat_PICOPARSE_24 (p : Ptr) (i : Nat) :
    (PICOPARSE_24 p i).Sat (fun _ => True) (fun _ => False) := by
  unfold PICOPARSE_24
  exact sat_clean_bind _ _ _ _ (sat_PICOPARSE_16 p i) fun _ =>
    sat_clean_bind _ _ _ _ (sat_read_clean p (i + 2)) fun _ => sat_pure _ _ _ trivial

theorem sat_PICOPARSE_32 (p : Ptr) (i : Nat) :
    (PICOPARSE_32 p i).Sat (fun _ => True) (fun _ => False) := by
  unfold PICOPARSE_32
  exact sat_clean_bind _ _ _ _ (sat_PICOPARSE_16 p i) fun _ =>
    sat_clean_bind _ _ _ _ (sat_PICOPARSE_16 p (i + 2)) fun _ => sat_pure _ _ _ trivial

theorem sat_PICOPARSE_64 (p : Ptr) (i : Nat) :
    (PICOPARSE_64 p i).Sat (fun _ => True) (fun _ => False) := by
  unfold PICOPARSE_64
  exact sat_clean_bind _ _ _ _ (sat_PICOPARSE_32 p i) fun _ =>
    sat_clean_bind _ _ _ _ (sat_PICOPARSE_32 p (i + 4)) fun _ => sat_pure _ _ _ trivial

theorem sat_stream_preview (p : Ptr) (byte_index data_length : Nat) :
    ∀ (fuel i : Nat), 8 - i < fuel →
      (stream_preview p byte_index data_length fuel i).Sat (fun _ => True) (fun _ => False) := by
  intro fuel
  induction fuel with
  | zero => intro i h; omega
  | succ fuel ih =>
    intro i h
    unfold stream_preview
    split
    · rename_i hc
      exact sat_clean_bind _ _ _ _ (sat_read_clean _ _) fun _ =>
        sat_clean_bind _ _ _ _ (sat_fprintf_clean _ _ (by simp [malformedText])) fun _ =>
          ih (i + 1) (by omega)
    · exact sat_pure _ _ _ trivial

theorem sat_read_lt (p : Ptr) (i : Nat) :
    (read p i).Sat (fun b => b < 256) (fun _ => False) := by
  intro s
  unfold read
  cases h : p.buf[p.base + i]? with
  | none => trivial
  | some b => exact ⟨b.isLt, [], by simp, fun hm => absurd hm reportsMalformed_nil⟩

theorem sat_PICOPARSE_16_lt (p : Ptr) (i : Nat) :
    (PICOPARSE_16 p i).Sat (fun r => r < 65536) (fun _ => False) := by
  unfold PICOPARSE_16
  exact sat_bind _ _ _ _ _ (sat_read_lt p i) fun b0 h0 =>
    sat_bind _ _ _ _ _ (sat_read_lt p (i + 1)) fun b1 h1 =>
      sat_pure _ _ _ (by omega)

/-- On every path of the stream frame decoder the value of `byte_index` at the end is
between 1 and `bytes_max`; a malformed report goes with the value `bytes_max`, and is made
only on slices shorter than 65550 bytes. -/
theorem sat_stream_frame (p : Ptr) (bytes_max : Nat) (h1 : 1 ≤ bytes_max) :
    (stream_frame_byte_index p bytes_max).Sat (fun n => 1 ≤ n ∧ n ≤ bytes_max)
      (fun n => n = bytes_max ∧ bytes_max < 65550) := by
  unfold stream_frame_byte_index
  refine sat_clean_bind _ _ _ _ (sat_read_clean p 0) fun first_byte => ?_
  lift_lets
  intro stream_id_length data_length_length offset_length b1 b2 jp1
  have hsl : stream_id_length ≤ 4 := by
    have h3 : (first_byte >>> 3) &&& 3 ≤ 3 := Nat.and_le_right
    simp only [stream_id_length]
    omega
  have hdl : data_length_length ≤ 2 := by
    have h3 : first_byte &&& 1 ≤ 1 := Nat.and_le_right
    simp only [data_length_length]
    omega
  have hol : offset_length ≤ 8 := by
    simp only [offset_length]
    split <;> omega
  have hb2 : 1 ≤ b2 ∧ b2 ≤ 13 := by simp only [b2, b1]; omega
  clear_value stream_id_length data_length_length offset_length b1 b2
  have hjp1 : ∀ sid, (jp1 sid).Sat (fun n => 1 ≤ n ∧ n ≤ bytes_max)
      (fun n => n = bytes_max ∧ bytes_max < 65550) := by
    intro sid
    (unfold jp1)
    lift_lets
    intro jp2
    have hjp2 : ∀ off, (jp2 off).Sat (fun n => 1 ≤ n ∧ n ≤ bytes_max)
        (fun n => n = bytes_max ∧ bytes_max < 65550) := by
      intro off
      (unfold jp2)
      lift_lets
      intro jp3
      have hjp3 : ∀ x : Nat × Nat,
          (1 ≤ x.2 ∧ x.2 ≤ 15 ∧ (x.1 < 65536 ∨ x.1 = bytes_max - x.2)) →
          (jp3 x).Sat (fun n => 1 ≤ n ∧ n ≤ bytes_max)
            (fun n => n = bytes_max ∧ bytes_max < 65550) := by
        rintro ⟨dl, bi⟩ hbi
        simp only [jp3]
        simp only at hbi
        refine sat_clean_bind _ _ _ _ (sat_fprintf_clean _ _ (by simp [malformedText])) fun _ => ?_
        split
        · rename_i hover
          exact sat_report _ _ _ _ _ ⟨h1, le_refl _⟩ ⟨rfl, by omega⟩
        · rename_i hfit
          refine sat_clean_bind _ _ _ _ (sat_fprintf_clean _ _ (by simp [malformedText])) fun _ => ?_
          refine sat_clean_bind _ _ _ _ (sat_stream_preview p bi dl 9 0 (by omega)) fun _ => ?_
          refine sat_clean_bind _ _ _ _ (sat_fprintf_clean _ _ (by simp [malformedText])) fun _ => ?_
          exact sat_mono _ _ _ _ _ (sat_pure (bi + dl) (fun n => 1 ≤ n ∧ n ≤ bytes_max)
            (fun _ => False) ⟨by omega, by omega⟩) (fun _ h => h)
            (fun _ _ h => h.elim)
      split
      · exact sat_bind _ _
          (fun x : Nat × Nat => 1 ≤ x.2 ∧ x.2 ≤ 15 ∧ (x.1 < 65536 ∨ x.1 = bytes_max - x.2)) _ _
          (sat_pure _ _ _ ⟨hb2.1, by omega, Or.inr rfl⟩) hjp3
      · exact sat_bind _ _ (fun l => l < 65536) _ _ (sat_PICOPARSE_16_lt _ _) fun l hl =>
          sat_bind _ _
            (fun x : Nat × Nat => 1 ≤ x.2 ∧ x.2 ≤ 15 ∧ (x.1 < 65536 ∨ x.1 = bytes_max - x.2)) _ _
            (sat_pure _ _ _ ⟨by omega, by omega, Or.inl hl⟩) hjp3
    split
    · exact sat_clean_bind _ _ _ _ (sat_pure _ _ _ trivial) hjp2
    · exact sat_clean_bind _ _ _ _ (sat_PICOPARSE_16 _ _) hjp2
    · exact sat_clean_bind _ _ _ _ (sat_PICOPARSE_32 _ _) hjp2
    · exact sat_clean_bind _ _ _ _ (sat_PICOPARSE_64 _ _) hjp2
    · exact sat_clean_bind _ _ _ _ (sat_pure _ _ _ trivial) hjp2
  split
  · rename_i hshort
    exact sat_report _ _ _ _ _ ⟨h1, le_refl _⟩ ⟨rfl, by omega⟩
  · split
    · exact sat_clean_bind _ _ _ _ (sat_read_clean _ _) hjp1
    · exact sat_clean_bind _ _ _ _ (sat_PICOPARSE_16 _ _) hjp1
    · exact sat_clean_bind _ _ _ _ (sat_PICOPARSE_24 _ _) hjp1
    · exact sat_clean_bind _ _ _ _ (sat_PICOPARSE_32 _ _) hjp1
    · exact sat_clean_bind _ _ _ _ (sat_pure _ _ _ trivial) hjp1

theorem sat_ack_blocks (p : Ptr) (mm num_block : Nat) :
    ∀ (fuel i byte_index ack_range : Nat), num_block - i < fuel →
      (ack_blocks p mm num_block fuel i byte_index ack_range).Sat
        (fun r => byte_index ≤ r) (fun _ => False) := by
  intro fuel
  induction fuel with
  | zero => intro i byte_index ack_range h; omega
  | succ fuel ih =>
    intro i byte_index ack_range h
    unfold ack_blocks
    split
    · rename_i hc
      refine sat_clean_bind _ _ _ _ (sat_read_clean _ _) fun gap => ?_
      lift_lets
      intro b1 jp b2
      have hb1 : byte_index ≤ b1 := by simp only [b1]; omega
      have hb2 : byte_index ≤ b2 := by simp only [b2, b1]; omega
      clear_value b1 b2
      have hjp : ∀ x : Nat × Nat, byte_index ≤ x.2 →
          (jp x).Sat (fun r => byte_index ≤ r) (fun _ => False) := by
        rintro ⟨ar, bi⟩ hbi
        simp only [jp]
        refine sat_clean_bind _ _ _ _ (sat_fprintf_clean _ _ (by simp [malformedText])) fun _ => ?_
        exact sat_mono _ _ _ _ _ (ih (i + 1) bi ar (by omega)) (fun r hr => le_trans hbi hr)
          (fun _ _ h => h)
      split
      · exact sat_clean_bind _ _ _ _ (sat_read_clean _ _) fun r =>
          sat_bind _ _ (fun x : Nat × Nat => byte_index ≤ x.2) _ _
            (sat_pure _ _ _ (Nat.le_add_right_of_le hb2)) hjp
      · exact sat_clean_bind _ _ _ _ (sat_PICOPARSE_16 _ _) fun r =>
          sat_bind _ _ (fun x : Nat × Nat => byte_index ≤ x.2) _ _
            (sat_pure _ _ _ (Nat.le_add_right_of_le hb1)) hjp
      · exact sat_clean_bind _ _ _ _ (sat_PICOPARSE_32 _ _) fun r =>
          sat_bind _ _ (fun x : Nat × Nat => byte_index ≤ x.2) _ _
            (sat_pure _ _ _ (Nat.le_add_right_of_le hb1)) hjp
      · exact sat_clean_bind _ _ _ _ (sat_PICOPARSE_64 _ _) fun r =>
          sat_bind _ _ (fun x : Nat × Nat => byte_index ≤ x.2) _ _
            (sat_pure _ _ _ (Nat.le_add_right_of_le hb1)) hjp
      · exact sat_bind _ _ (fun x : Nat × Nat => byte_index ≤ x.2) _ _
          (sat_pure _ _ _ hb1) hjp
    · exact sat_pure _ _ _ (le_refl _)

theorem sat_ack_decode (p : Ptr) (bytes_max ll mm num_block num_ts byte_index : Nat)
    (h1 : 1 ≤ bytes_max) (hb : 1 ≤ byte_index) :
    (ack_decode p bytes_max ll mm num_block num_ts byte_index).Sat
      (fun n => 1 ≤ n ∧ n ≤ bytes_max) (fun n => n = bytes_max) := by
  unfold ack_decode
  refine sat_clean_bind _ _ _ _ (sat_fprintf_clean _ _ (by simp [malformedText])) fun _ => ?_
  lift_lets
  intro jpA jpB b1
  have hb1 : 1 ≤ b1 := by simp only [b1]; omega
  clear_value b1
  have hjpA : ∀ x : Nat × Nat, 1 ≤ x.2 →
      (jpA x).Sat (fun n => 1 ≤ n ∧ n ≤ bytes_max) (fun n => n = bytes_max) := by
    rintro ⟨lr, bi⟩ hbi
    simp only [jpA]
    refine sat_clean_bind _ _ _ _ (sat_fprintf_clean _ _ (by simp [malformedText])) fun _ => ?_
    refine sat_bind _ _ (fun b => 1 ≤ b) _ _
      (sat_mono _ _ _ _ _ (sat_ack_blocks p mm num_block (num_block + 1) 0 bi 0 (by omega))
        (fun r hr => le_trans hbi hr) (fun _ _ h => h)) fun b hb1 => ?_
    have hb2 : 1 ≤ (if num_ts > 0 then b + (2 + num_ts * 3) else b) := by
      have : 1 ≤ b := hb1
      split <;> omega
    show M.Sat (if (if num_ts > 0 then b + (2 + num_ts * 3) else b) > bytes_max then _ else _) _ _
    generalize (if num_ts > 0 then b + (2 + num_ts * 3) else b) = b2 at hb2 ⊢
    split
    · exact sat_report _ _ _ _ _ ⟨h1, le_refl _⟩ rfl
    · rename_i hfit
      refine sat_clean_bind _ _ _ _ (sat_fprintf_clean _ _ (by simp [malformedText])) fun _ => ?_
      exact sat_mono _ _ _ _ _ (sat_pure b2 (fun n => 1 ≤ n ∧ n ≤ bytes_max)
        (fun _ => False) ⟨hb2, by omega⟩) (fun _ h => h) (fun _ _ h => h.elim)
  have hjpB : ∀ b, 1 ≤ b →
      (jpB b).Sat (fun n => 1 ≤ n ∧ n ≤ bytes_max) (fun n => n = bytes_max) := by
    intro b hb0
    (unfold jpB)
    lift_lets
    intro c1 c2
    have hc1 : 1 ≤ c1 := by simp only [c1]; omega
    have hc2 : 1 ≤ c2 := by simp only [c2, c1]; omega
    clear_value c1 c2
    split
    · exact sat_clean_bind _ _ _ _ (sat_read_clean _ _) fun r =>
        sat_bind _ _ (fun x : Nat × Nat => 1 ≤ x.2) _ _
          (sat_pure _ _ _ (Nat.le_add_right_of_le hc2)) hjpA
    · exact sat_clean_bind _ _ _ _ (sat_PICOPARSE_16 _ _) fun r =>
        sat_bind _ _ (fun x : Nat × Nat => 1 ≤ x.2) _ _
          (sat_pure _ _ _ (Nat.le_add_right_of_le hc1)) hjpA
    · exact sat_clean_bind _ _ _ _ (sat_PICOPARSE_32 _ _) fun r =>
        sat_bind _ _ (fun x : Nat × Nat => 1 ≤ x.2) _ _
          (sat_pure _ _ _ (Nat.le_add_right_of_le hc1)) hjpA
    · exact sat_clean_bind _ _ _ _ (sat_PICOPARSE_64 _ _) fun r =>
        sat_bind _ _ (fun x : Nat × Nat => 1 ≤ x.2) _ _
          (sat_pure _ _ _ (Nat.le_add_right_of_le hc1)) hjpA
    · exact sat_bind _ _ (fun x : Nat × Nat => 1 ≤ x.2) _ _ (sat_pure _ _ _ hc1) hjpA
  split
  · exact sat_clean_bind _ _ _ _ (sat_read_clean _ _) fun r =>
      sat_clean_bind _ _ _ _ (sat_fprintf_clean _ _ (by simp [malformedText])) fun _ =>
        sat_bind _ _ (fun b => 1 ≤ b) _ _ (sat_pure _ _ _ hb1) hjpB
  · exact sat_clean_bind _ _ _ _ (sat_PICOPARSE_16 _ _) fun r =>
      sat_clean_bind _ _ _ _ (sat_fprintf_clean _ _ (by simp [malformedText])) fun _ =>
        sat_bind _ _ (fun b => 1 ≤ b) _ _ (sat_pure _ _ _ (Nat.le_add_right_of_le hb)) hjpB
  · exact sat_clean_bind _ _ _ _ (sat_PICOPARSE_32 _ _) fun r =>
      sat_clean_bind _ _ _ _ (sat_fprintf_clean _ _ (by simp [malformedText])) fun _ =>
        sat_bind _ _ (fun b => 1 ≤ b) _ _ (sat_pure _ _ _ (Nat.le_add_right_of_le hb)) hjpB
  · exact sat_clean_bind _ _ _ _ (sat_PICOPARSE_64 _ _) fun r =>
      sat_clean_bind _ _ _ _ (sat_fprintf_clean _ _ (by simp [malformedText])) fun _ =>
        sat_bind _ _ (fun b => 1 ≤ b) _ _ (sat_pure _ _ _ (Nat.le_add_right_of_le hb)) hjpB
  · exact sat_bind _ _ (fun b => 1 ≤ b) _ _ (sat_pure _ _ _ hb) hjpB

theorem sat_ack_frame (p : Ptr) (bytes_max : Nat) (h1 : 1 ≤ bytes_max) :
    (picoquic_log_ack_frame p bytes_max).Sat (fun n => 1 ≤ n ∧ n ≤ bytes_max)
      (fun n => n = bytes_max) := by
  unfold picoquic_log_ack_frame
  refine sat_clean_bind _ _ _ _ (sat_read_clean p 0) fun first_byte => ?_
  lift_lets
  intro has_num_block ll mm jp
  clear_value has_num_block ll mm
  have hjp : ∀ x : Nat × Nat, 1 ≤ x.2 →
      (jp x).Sat (fun n => 1 ≤ n ∧ n ≤ bytes_max) (fun n => n = bytes_max) := by
    rintro ⟨nb, bi⟩ hbi
    simp only [jp]
    refine sat_clean_bind _ _ _ _ (sat_read_clean _ _) fun num_ts => ?_
    split
    · exact sat_report _ _ _ _ _ ⟨h1, le_refl _⟩ rfl
    · exact sat_ack_decode p bytes_max ll mm nb num_ts (bi + 1) h1 (by omega)
  split
  · exact sat_report _ _ _ _ _ ⟨h1, le_refl _⟩ rfl
  · split
    · exact sat_clean_bind _ _ _ _ (sat_read_clean _ _) fun n =>
        sat_bind _ _ (fun x : Nat × Nat => 1 ≤ x.2) _ _
          (sat_pure _ _ _ (show 1 ≤ 1 + 1 by omega)) hjp
    · exact sat_bind _ _ (fun x : Nat × Nat => 1 ≤ x.2) _ _
        (sat_pure _ _ _ (le_refl 1)) hjp

theorem sat_ret {α : Type} (m : M α) (Q E : α → Prop) (h : m.Sat Q E) (s s1 : Trace) (a : α)
    (hr : m s = (Outcome.ret a, s1)) :
    Q a ∧ ∃ ext, s1.out = s.out ++ ext ∧ (reportsMalformed ext → E a) := by
  have hs := h s
  rw [hr] at hs
  exact hs

/-- The `fprintf` calls that list `n` versions, the 4-byte fields that start at index `o`. -/
theorem negotiation_versions_apply (p : Ptr) (length : Nat) :
    ∀ (n fuel byte_index : Nat) (s : Trace), n < fuel →
      byte_index + 4 * n ≤ length → length < byte_index + 4 * n + 4 →
      p.base + length ≤ p.buf.length →
      negotiation_versions p length fuel byte_index s
        = (Outcome.ret (),
            ⟨s.out ++ (List.range n).map (fun k =>
                (⟨"%x, ", [Arg.num (field p.buf (p.base + byte_index + 4 * k) 4)]⟩ : Printf)),
             s.reads ++ List.range' (p.base + byte_index) (4 * n)⟩) := by
  intro n
  induction n with
  | zero =>
    intro fuel byte_index s hf h1 h2 hb
    obtain ⟨fuel, rfl⟩ : ∃ f, fuel = f + 1 := ⟨fuel - 1, by omega⟩
    unfold negotiation_versions
    have hc : ¬ byte_index + 4 ≤ length := by omega
    simp only [hc, if_false, pure_apply, List.range_zero, List.map_nil, List.append_nil,
      Nat.mul_zero, List.range'_zero]
  | succ n ih =>
    intro fuel byte_index s hf h1 h2 hb
    obtain ⟨fuel, rfl⟩ : ∃ f, fuel = f + 1 := ⟨fuel - 1, by omega⟩
    unfold negotiation_versions
    have hc : byte_index + 4 ≤ length := by omega
    simp only [hc, if_true, bind_apply]
    rw [PICOPARSE_32_apply (p.add byte_index) 0 s (by simp only [Ptr.add]; omega)]
    simp only [fprintf_apply]
    rw [ih fuel (byte_index + 4) _ (by omega) (by omega) (by omega) hb]
    simp only [Ptr.add, Nat.add_zero, List.range_succ_eq_map, List.map_cons, List.map_map,
      List.append_assoc, List.singleton_append, Nat.mul_zero]
    have e1 : List.range' (p.base + byte_index) (4 * (n + 1))
        = List.range' (p.base + byte_index) 4 ++ List.range' (p.base + (byte_index + 4)) (4 * n) := by
      have e0 : p.base + (byte_index + 4) = p.base + byte_index + 4 := by omega
      rw [e0, List.range'_append_1]
      congr 1
    have e2 : List.map ((fun k =>
          (⟨"%x, ", [Arg.num (field p.buf (p.base + byte_index + 4 * k) 4)]⟩ : Printf)) ∘ Nat.succ)
          (List.range n)
        = List.map (fun k =>
          (⟨"%x, ", [Arg.num (field p.buf (p.base + (byte_index + 4) + 4 * k) 4)]⟩ : Printf))
          (List.range n) := by
      apply List.map_congr_left
      intro k _
      simp only [Function.comp_apply]
      have e3 : p.base + byte_index + 4 * k.succ = p.base + (byte_index + 4) + 4 * k := by omega
      rw [e3]
    rw [e1, e2]

/-- The block loop of the ack decoder for 2-, 4- and 8-byte ranges: `n` blocks of
`1 + 2 ^ mm` bytes are read and rendered in wire order. -/
theorem ack_blocks_apply (p : Ptr) (mm num_block : Nat) (hmm : mm = 1 ∨ mm = 2 ∨ mm = 3) :
    ∀ (n fuel i byte_index ack_range : Nat) (s : Trace), n < fuel → i + n = num_block →
      p.base + byte_index + n * (1 + 2 ^ mm) ≤ p.buf.length →
      ack_blocks p mm num_block fuel i byte_index ack_range s
        = (Outcome.ret (byte_index + n * (1 + 2 ^ mm)),
            ⟨s.out ++ (List.range n).map (fun k =>
                blockCall (field p.buf (p.base + byte_index + k * (1 + 2 ^ mm)) 1)
                  (field p.buf (p.base + byte_index + k * (1 + 2 ^ mm) + 1) (2 ^ mm))),
             s.reads ++ List.range' (p.base + byte_index) (n * (1 + 2 ^ mm))⟩) := by
  intro n
  induction n with
  | zero =>
    intro fuel i byte_index ack_range s hf hin hb
    obtain ⟨fuel, rfl⟩ : ∃ f, fuel = f + 1 := ⟨fuel - 1, by omega⟩
    unfold ack_blocks
    have hc : ¬ i < num_block := by omega
    simp only [hc, if_false, pure_apply, List.range_zero, List.map_nil, List.append_nil,
      Nat.zero_mul, List.range'_zero, Nat.add_zero]
  | succ n ih =>
    intro fuel i byte_index ack_range s hf hin hb
    obtain ⟨fuel, rfl⟩ : ∃ f, fuel = f + 1 := ⟨fuel - 1, by omega⟩
    unfold ack_blocks
    have hc : i < num_block := by omega
    have hstep : ∀ (r : Nat) (s1 : Trace),
        ack_blocks p mm num_block fuel (i + 1) (byte_index + 1 + 2 ^ mm) r s1
          = (Outcome.ret (byte_index + 1 + 2 ^ mm + n * (1 + 2 ^ mm)),
              ⟨s1.out ++ (List.range n).map (fun k =>
                  blockCall (field p.buf (p.base + (byte_index + 1 + 2 ^ mm) + k * (1 + 2 ^ mm)) 1)
                    (field p.buf (p.base + (byte_index + 1 + 2 ^ mm) + k * (1 + 2 ^ mm) + 1)
                      (2 ^ mm))),
               s1.reads ++ List.range' (p.base + (byte_index + 1 + 2 ^ mm)) (n * (1 + 2 ^ mm))⟩) := by
      intro r s1
      refine ih fuel (i + 1) (byte_index + 1 + 2 ^ mm) r s1 (by omega) (by omega) ?_
      have e : (n + 1) * (1 + 2 ^ mm) = n * (1 + 2 ^ mm) + (1 + 2 ^ mm) := by ring
      rw [e] at hb
      omega
    have e : (n + 1) * (1 + 2 ^ mm) = (1 + 2 ^ mm) + n * (1 + 2 ^ mm) := by ring
    rw [e] at hb ⊢
    have e2 : List.map ((fun k =>
          blockCall (field p.buf (p.base + byte_index + k * (1 + 2 ^ mm)) 1)
            (field p.buf (p.base + byte_index + k * (1 + 2 ^ mm) + 1) (2 ^ mm))) ∘ Nat.succ)
          (List.range n)
        = List.map (fun k =>
          blockCall (field p.buf (p.base + (byte_index + 1 + 2 ^ mm) + k * (1 + 2 ^ mm)) 1)
            (field p.buf (p.base + (byte_index + 1 + 2 ^ mm) + k * (1 + 2 ^ mm) + 1) (2 ^ mm)))
          (List.range n) := by
      apply List.map_congr_left
      intro k _
      simp only [Function.comp_apply]
      have e3 : p.base + byte_index + k.succ * (1 + 2 ^ mm)
          = p.base + (byte_index + 1 + 2 ^ mm) + k * (1 + 2 ^ mm) := by
        rw [Nat.succ_mul]; omega
      rw [e3]
    have e4 : List.range' (p.base + byte_index) (1 + 2 ^ mm + n * (1 + 2 ^ mm))
        = List.range' (p.base + byte_index) (1 + 2 ^ mm)
          ++ List.range' (p.base + (byte_index + 1 + 2 ^ mm)) (n * (1 + 2 ^ mm)) := by
      have e0 : p.base + (byte_index + 1 + 2 ^ mm) = p.base + byte_index + (1 + 2 ^ mm) := by
        omega
      rw [e0, List.range'_append_1]
      congr 1
      omega
    rw [List.range_succ_eq_map, List.map_cons, List.map_map, e2, e4]
    rcases hmm with rfl | rfl | rfl
    all_goals simp only [Nat.reducePow, Nat.reduceAdd] at hb hstep ⊢
    all_goals simp (disch := omega) only [hc, if_true, bind_apply, pure_apply, fprintf_apply,
      read_apply, PICOPARSE_16_apply, PICOPARSE_32_apply, PICOPARSE_64_apply, hstep,
      List.range', List.append_assoc, List.singleton_append, List.cons_append, List.nil_append,
      Nat.add_assoc, Nat.reduceAdd, Nat.add_zero, Nat.zero_mul, blockCall, Nat.mul_zero]

/-- The block loop as `ack_decode` starts it. -/
theorem ack_blocks_run (p : Ptr) (mm num_block byte_index : Nat) (s : Trace)
    (hmm : mm = 1 ∨ mm = 2 ∨ mm = 3)
    (hb : p.base + byte_index + num_block * (1 + 2 ^ mm) ≤ p.buf.length) :
    ack_blocks p mm num_block (num_block + 1) 0 byte_index 0 s
      = (Outcome.ret (byte_index + num_block * (1 + 2 ^ mm)),
          ⟨s.out ++ (List.range num_block).map (fun k =>
              blockCall (field p.buf (p.base + byte_index + k * (1 + 2 ^ mm)) 1)
                (field p.buf (p.base + byte_index + k * (1 + 2 ^ mm) + 1) (2 ^ mm))),
           s.reads ++ List.range' (p.base + byte_index) (num_block * (1 + 2 ^ mm))⟩) :=
  ack_blocks_apply p mm num_block hmm num_block (num_block + 1) 0 byte_index 0 s
    (by omega) (by omega) hb

set_option maxHeartbeats 1000000 in
/-- What `ack_decode` does for 2-, 4- and 8-byte ranges when the required size fits in a
slice that lies inside the buffer. -/
theorem ack_decode_apply (p : Ptr) (bytes_max ll mm num_block num_ts byte_index : Nat)
    (s : Trace) (hll : ll < 4) (hmm : mm = 1 ∨ mm = 2 ∨ mm = 3)
    (hfit : byte_index + 2 ^ ll + 2 + 2 ^ mm + num_block * (1 + 2 ^ mm)
      + (if num_ts > 0 then 2 + num_ts * 3 else 0) ≤ bytes_max)
    (hb : p.base + bytes_max ≤ p.buf.length) :
    ack_decode p bytes_max ll mm num_block num_ts byte_index s
      = (Outcome.ret (byte_index + 2 ^ ll + 2 + 2 ^ mm + num_block * (1 + 2 ^ mm)
            + (if num_ts > 0 then 2 + num_ts * 3 else 0)),
          ⟨s.out ++ ([ackLine num_block num_ts,
                largestCall ll (field p.buf (p.base + byte_index) (2 ^ ll)),
                firstRangeCall (field p.buf (p.base + byte_index + 2 ^ ll + 2) (2 ^ mm))]
              ++ (List.range num_block).map (fun k =>
                  blockCall
                    (field p.buf
                      (p.base + (byte_index + 2 ^ ll + 2 + 2 ^ mm) + k * (1 + 2 ^ mm)) 1)
                    (field p.buf
                      (p.base + (byte_index + 2 ^ ll + 2 + 2 ^ mm) + k * (1 + 2 ^ mm) + 1)
                      (2 ^ mm)))
              ++ [⟨"\n", []⟩]),
           s.reads ++ (List.range' (p.base + byte_index) (2 ^ ll)
              ++ List.range' (p.base + byte_index + 2 ^ ll + 2) (2 ^ mm)
              ++ List.range' (p.base + (byte_index + 2 ^ ll + 2 + 2 ^ mm))
                  (num_block * (1 + 2 ^ mm)))⟩) := by
  unfold ack_decode
  have hts : (if num_ts > 0 then 2 + num_ts * 3 else 0) = (if num_ts > 0 then 2 + num_ts * 3 else 0) := rfl
  generalize hT : (if num_ts > 0 then 2 + num_ts * 3 else 0) = T at hfit ⊢
  have hfin : ∀ b : Nat, (if num_ts > 0 then b + (2 + num_ts * 3) else b) = b + T := by
    intro b
    rw [← hT]
    split <;> rfl
  interval_cases ll <;> rcases hmm with rfl | rfl | rfl
  all_goals simp only [Nat.reducePow, Nat.reduceAdd] at hfit ⊢
  all_goals simp (disch := omega) only [bind_apply, pure_apply, fprintf_apply,
      read_apply, PICOPARSE_16_apply, PICOPARSE_32_apply, PICOPARSE_64_apply,
      Nat.add_assoc, Nat.reduceAdd]
  all_goals first
    | rw [ack_blocks_run p 1 num_block _ _ (Or.inl rfl)
        (by simp only [Nat.reducePow]; omega)]
    | rw [ack_blocks_run p 2 num_block _ _ (Or.inr (Or.inl rfl))
        (by simp only [Nat.reducePow]; omega)]
    | rw [ack_blocks_run p 3 num_block _ _ (Or.inr (Or.inr rfl))
        (by simp only [Nat.reducePow]; omega)]
  all_goals simp only [hfin, Nat.reducePow, Nat.reduceAdd, gt_iff_lt]
  all_goals rw [if_neg (by omega)]
  all_goals simp only [bind_apply, fprintf_apply, pure_apply, ackLine, largestCall,
    firstRangeCall, List.range', List.append_assoc, List.singleton_append, List.cons_append,
    List.nil_append, Nat.add_assoc, Nat.reduceAdd, Nat.reducePow, if_true, if_false,
    Nat.reduceEqDiff, Nat.add_zero, OfNat.ofNat_ne_zero, one_ne_zero]

theorem ack_min_size_eq (t nb nts : Nat) :
    ack_min_size (t / 4 % 4) (t % 4) nb nts (ackHeader t) = ackRequired t nb nts := by
  obtain ⟨b, hb2⟩ : ∃ b, t / 4 % 4 = b := ⟨_, rfl⟩
  obtain ⟨c, hc⟩ : ∃ c, t % 4 = c := ⟨_, rfl⟩
  have hb4 : b < 4 := by omega
  have hc4 : c < 4 := by omega
  simp only [ack_min_size, ackRequired, largestWidth, rangeWidth, hb2, hc]
  interval_cases b <;> interval_cases c <;> simp only [Nat.reducePow] <;> split_ifs <;> omega

/-- On a slice that holds the size the frame requires, `picoquic_log_ack_frame` reads the
header bytes and goes on with `ack_decode`. -/
theorem ack_frame_sized_apply (p : Ptr) (bytes_max : Nat) (s : Trace)
    (hb : p.base + bytes_max ≤ p.buf.length)
    (h : ackRequired (field p.buf p.base 1) (ackNumBlock (p.buf.drop p.base))
          (ackNumTs (p.buf.drop p.base)) ≤ bytes_max) :
    picoquic_log_ack_frame p bytes_max s
      = ack_decode p bytes_max (field p.buf p.base 1 / 4 % 4) (field p.buf p.base 1 % 4)
          (ackNumBlock (p.buf.drop p.base)) (ackNumTs (p.buf.drop p.base))
          (ackHeader (field p.buf p.base 1))
          ⟨s.out, s.reads ++ List.range' p.base (ackHeader (field p.buf p.base 1))⟩ := by
  have h6 : 6 ≤ bytes_max := by
    refine le_trans ?_ h
    unfold ackRequired ackHeader largestWidth rangeWidth
    have h1 : 1 ≤ 2 ^ (field p.buf p.base 1 / 4 % 4) := Nat.one_le_two_pow
    have h2 : 1 ≤ 2 ^ (field p.buf p.base 1 % 4) := Nat.one_le_two_pow
    split <;> omega
  have h3 : ¬ bytes_max < 3 := by omega
  unfold picoquic_log_ack_frame
  simp only [bind_apply]
  rw [read_apply p 0 s (by omega)]
  simp only [Nat.add_zero, shr4_and1, shr2_and3, and3, and1, Nat.shiftRight_eq_div_pow,
    Nat.reducePow]
  revert h
  simp only [ackNumBlock, ackNumTs, field_drop, Nat.add_zero, h3, if_false]
  generalize field p.buf p.base 1 = t
  intro h
  rw [← ack_min_size_eq] at h
  revert h
  simp only [ackHeader, hasBlockCount]
  obtain ⟨a, ha⟩ : ∃ a, t / 16 % 2 = a := ⟨_, rfl⟩
  have ha2 : a < 2 := by omega
  simp only [ha]
  interval_cases a
  all_goals simp only [Nat.reduceAdd, if_true, if_false,
    Nat.reduceEqDiff, decide_True, decide_False, Nat.zero_ne_one, Nat.add_zero,
    Bool.false_eq_true, ne_eq, not_true_eq_false, not_false_eq_true, Nat.add_sub_cancel,
    Nat.reduceSub, one_ne_zero]
  all_goals intro h
  all_goals simp (disch := omega) only [bind_apply, pure_apply, fprintf_apply, read_apply,
    field_zero, List.range', List.append_assoc, List.singleton_append, List.cons_append,
    List.nil_append, Nat.add_assoc, Nat.reduceAdd, Nat.add_zero, gt_iff_lt, if_neg]

/-! ## Hexadecimal numerals -/

theorem toDigitsCore_append (b : Nat) :
    ∀ (fuel n : Nat) (ds : List Char),
      Nat.toDigitsCore b fuel n ds = Nat.toDigitsCore b fuel n [] ++ ds := by
  intro fuel
  induction fuel with
  | zero => intro n ds; simp [Nat.toDigitsCore]
  | succ fuel ih =>
    intro n ds
    simp only [Nat.toDigitsCore]
    split
    · simp
    · rw [ih (n / b) (Nat.digitChar (n % b) :: ds), ih (n / b) [Nat.digitChar (n % b)]]
      simp

theorem toDigitsCore_fuel (b : Nat) (hb : 2 ≤ b) :
    ∀ (f1 f2 n : Nat), n < f1 → n < f2 →
      Nat.toDigitsCore b f1 n [] = Nat.toDigitsCore b f2 n [] := by
  intro f1
  induction f1 with
  | zero => intro f2 n h; omega
  | succ f1 ih =>
    intro f2 n h1 h2
    obtain ⟨f2, rfl⟩ : ∃ f, f2 = f + 1 := ⟨f2 - 1, by omega⟩
    simp only [Nat.toDigitsCore]
    split
    · rfl
    · rename_i hne
      have hn : 0 < n := by
        rcases Nat.eq_zero_or_pos n with h | h
        · subst h; simp at hne
        · exact h
      have hlt : n / b < n := Nat.div_lt_self hn (by omega)
      rw [toDigitsCore_append b f1, toDigitsCore_append b f2,
        ih f2 (n / b) (by omega) (by omega)]

theorem toDigits_lt (b n : Nat) (h : n < b) :
    Nat.toDigits b n = [Nat.digitChar n] := by
  unfold Nat.toDigits
  simp only [Nat.toDigitsCore]
  rw [Nat.div_eq_of_lt h, Nat.mod_eq_of_lt h]
  simp

theorem toDigits_ge (b n : Nat) (hb : 2 ≤ b) (h : b ≤ n) :
    Nat.toDigits b n = Nat.toDigits b (n / b) ++ [Nat.digitChar (n % b)] := by
  have hne : n / b ≠ 0 := by
    have : 0 < n / b := Nat.div_pos h (by omega)
    omega
  have hlt : n / b < n := Nat.div_lt_self (by omega) (by omega)
  unfold Nat.toDigits
  rw [Nat.toDigitsCore]
  simp only [hne, if_false]
  rw [toDigitsCore_append b n, toDigitsCore_fuel b hb n (n / b + 1) (n / b) hlt (by omega)]

theorem text_hex (lo : Nat) (h : lo < 256) :
    Printf.text ⟨"%x", [Arg.num lo]⟩ = String.mk (Nat.toDigits 16 lo) := by
  have e : lo % 4294967296 = lo := Nat.mod_eq_of_lt (by omega)
  simp [Printf.text, expand, fieldWidth, convert, padField, e]

theorem text_hex2 (hi lo : Nat) (hh : hi < 256) (hl : lo < 256) :
    Printf.text ⟨"%x%02x", [Arg.num hi, Arg.num lo]⟩
      = String.mk (Nat.toDigits 16 hi
          ++ (List.replicate (2 - (Nat.toDigits 16 lo).length) '0' ++ Nat.toDigits 16 lo)) := by
  have e1 : hi % 4294967296 = hi := Nat.mod_eq_of_lt (by omega)
  have e2 : lo % 4294967296 = lo := Nat.mod_eq_of_lt (by omega)
  simp [Printf.text, expand, fieldWidth, convert, padField, e1, e2]

theorem digitChar_zero : Nat.digitChar 0 = '0' := rfl

theorem group_text (Byte : Fin 16 → Fin 256) (k : Fin 8) :
    (groupCall Byte k).text = hexNumeral (groupValue Byte k) := by
  unfold groupCall groupValue hexNumeral
  generalize (Byte ⟨2 * k.val, by omega⟩) = hi
  generalize (Byte ⟨2 * k.val + 1, by omega⟩) = lo
  have hh := hi.isLt
  have hl := lo.isLt
  generalize hi.val = a at hh ⊢
  generalize lo.val = c at hl ⊢
  by_cases h0 : a = 0
  · subst h0
    simp only [ne_eq, not_true_eq_false, if_false, Nat.zero_mul, Nat.zero_add]
    exact text_hex c hl
  · simp only [ne_eq, h0, not_false_eq_true, if_true]
    rw [text_hex2 a c hh hl]
    congr 1
    have e1 : (a * 256 + c) / 16 = a * 16 + c / 16 := by omega
    have e2 : (a * 256 + c) % 16 = c % 16 := by omega
    have e3 : (a * 16 + c / 16) / 16 = a := by omega
    have e4 : (a * 16 + c / 16) % 16 = c / 16 := by omega
    rw [toDigits_ge 16 (a * 256 + c) (by omega) (by omega), e1, e2,
      toDigits_ge 16 (a * 16 + c / 16) (by omega) (by omega), e3, e4]
    by_cases hc : c < 16
    · rw [toDigits_lt 16 c hc]
      have e5 : c / 16 = 0 := by omega
      have e6 : c % 16 = c := by omega
      rw [e5, e6, digitChar_zero]
      simp
    · rw [toDigits_ge 16 c (by omega) (by omega), toDigits_lt 16 (c / 16) (by omega)]
      simp

theorem address_groups_step (Byte : Fin 16 → Fin 256) (fuel i : Nat) (s : Trace) (h : i < 8) :
    address_groups Byte (fuel + 1) i s
      = address_groups Byte fuel (i + 1)
          ⟨s.out ++ (if i ≠ 0 then [(⟨":", []⟩ : Printf)] else []) ++ [groupCall Byte ⟨i, h⟩],
           s.reads⟩ := by
  rw [address_groups]
  simp only [h, dif_pos, groupCall]
  by_cases h0 : i ≠ 0 <;> by_cases hb : (Byte ⟨2 * i, by omega⟩).val ≠ 0
  all_goals simp only [h0, hb, if_true, if_false, bind_apply, fprintf_apply, pure_apply,
    List.append_nil, ne_eq, not_false_eq_true, not_true_eq_false]

theorem hexValue_append (ds : List Char) (c : Char) :
    hexValue (ds ++ [c]) = hexValue ds * 16 + hexDigitValue c := by
  simp [hexValue, List.foldl_append]

theorem digitChar_hex : ∀ d, d < 16 →
    Nat.digitChar d ∈ "0123456789abcdef".data ∧ hexDigitValue (Nat.digitChar d) = d
      ∧ (d ≠ 0 → Nat.digitChar d ≠ '0') := by
  decide

/-- The numeral that `Nat.toDigits 16` gives for a value below `16 ^ (e + 1)` has between 1
and `e + 1` lower-case hexadecimal digits, denotes the value, and has no leading zero
unless the value is zero. -/
theorem toDigits_hex : ∀ (e v : Nat), v < 16 ^ (e + 1) →
    1 ≤ (Nat.toDigits 16 v).length ∧ (Nat.toDigits 16 v).length ≤ e + 1
      ∧ (∀ c ∈ Nat.toDigits 16 v, c ∈ "0123456789abcdef".data)
      ∧ hexValue (Nat.toDigits 16 v) = v
      ∧ (v ≠ 0 → (Nat.toDigits 16 v).head? ≠ some '0') := by
  intro e
  induction e with
  | zero =>
    intro v hv
    have hv16 : v < 16 := by simpa using hv
    obtain ⟨h1, h2, h3⟩ := digitChar_hex v hv16
    rw [toDigits_lt 16 v hv16]
    refine ⟨by simp, by simp, ?_, ?_, ?_⟩
    · intro c hc
      simp only [List.mem_singleton] at hc
      rw [hc]; exact h1
    · simp [hexValue, h2]
    · intro hne
      simp only [List.head?_cons, ne_eq, Option.some.injEq]
      exact h3 hne
  | succ e ih =>
    intro v hv
    by_cases hv16 : v < 16
    · obtain ⟨h1, h2, h3⟩ := digitChar_hex v hv16
      rw [toDigits_lt 16 v hv16]
      refine ⟨by simp, by simp, ?_, ?_, ?_⟩
      · intro c hc
        simp only [List.mem_singleton] at hc
        rw [hc]; exact h1
      · simp [hexValue, h2]
      · intro hne
        simp only [List.head?_cons, ne_eq, Option.some.injEq]
        exact h3 hne
    · have hq : v / 16 < 16 ^ (e + 1) := by
        rw [Nat.div_lt_iff_lt_mul (by decide)]
        rw [pow_succ] at hv
        exact hv
      have hq0 : v / 16 ≠ 0 := by omega
      obtain ⟨i1, i2, i3, i4, i5⟩ := ih (v / 16) hq
      obtain ⟨h1, h2, _⟩ := digitChar_hex (v % 16) (Nat.mod_lt _ (by decide))
      rw [toDigits_ge 16 v (by decide) (by omega)]
      refine ⟨by simp, by simp only [List.length_append, List.length_singleton]; omega, ?_, ?_, ?_⟩
      · intro c hc
        simp only [List.mem_append, List.mem_singleton] at hc
        rcases hc with hc | hc
        · exact i3 c hc
        · rw [hc]; exact h1
      · rw [hexValue_append, i4, h2]
        omega
      · intro _
        have hne : Nat.toDigits 16 (v / 16) ≠ [] := by
          intro hnil
          rw [hnil] at i1
          simp at i1
        rw [List.head?_append_of_ne_nil _ hne]
        exact i5 hq0

theorem address_groups_done (Byte : Fin 16 → Fin 256) (fuel : Nat) (s : Trace) :
    address_groups Byte (fuel + 1) 8 s = (Outcome.ret (), s) := by
  rw [address_groups]
  simp only [Nat.lt_irrefl, dif_neg, not_false_eq_true, pure_apply]

/-- The run of `picoquic_log_packet_address` on an IPv6 address: the first line fragment,
the eight group calls with a ":" call before each but the first, and the newline. -/
theorem packet_address_in6_apply (Byte : Fin 16 → Fin 256) (receiving length : Nat)
    (s : Trace) :
    picoquic_log_packet_address (sockaddr.in6 Byte) receiving length s
      = (Outcome.ret (),
          ⟨s.out ++ ((⟨if receiving ≠ 0 then "Receiving %d bytes from " else "Sending %d bytes to ",
                [Arg.num length]⟩ : Printf)
              :: (List.intersperse (⟨":", []⟩ : Printf) ((List.finRange 8).map (groupCall Byte))
                  ++ [⟨"\n", []⟩])),
           s.reads⟩) := by
  unfold picoquic_log_packet_address
  simp only [bind_apply, fprintf_apply]
  rw [address_groups_step Byte 8 0 _ (by decide), address_groups_step Byte 7 1 _ (by decide),
    address_groups_step Byte 6 2 _ (by decide), address_groups_step Byte 5 3 _ (by decide),
    address_groups_step Byte 4 4 _ (by decide), address_groups_step Byte 3 5 _ (by decide),
    address_groups_step Byte 2 6 _ (by decide), address_groups_step Byte 1 7 _ (by decide),
    address_groups_done Byte 0]
  simp only [ne_eq, not_true_eq_false, if_false, if_true, List.append_nil, List.append_assoc,
    List.singleton_append, List.cons_append, List.nil_append, OfNat.ofNat_ne_zero,
    one_ne_zero, not_false_eq_true]
  rfl

theorem hexDigitValue_lt : ∀ c ∈ "0123456789abcdef".data, hexDigitValue c < 16 := by
  decide

theorem hexValue_lt (ds : List Char) :
    (∀ c ∈ ds, c ∈ "0123456789abcdef".data) → hexValue ds < 16 ^ ds.length := by
  induction ds using List.reverseRecOn with
  | nil => intro _; simp [hexValue]
  | append_singleton ds c ih =>
    intro h
    have h1 : hexValue ds < 16 ^ ds.length := ih (fun c hc => h c (by simp [hc]))
    have h2 : hexDigitValue c < 16 := hexDigitValue_lt c (h c (by simp))
    rw [hexValue_append, List.length_append, List.length_singleton, pow_succ]
    omega

/-- A nonzero value is at least `16 ^ (n - 1)` when `Nat.toDigits 16` gives it `n` digits. -/
theorem toDigits_len_min : ∀ (e v : Nat), v < 16 ^ (e + 1) → v ≠ 0 →
    16 ^ ((Nat.toDigits 16 v).length - 1) ≤ v := by
  intro e
  induction e with
  | zero =>
    intro v hv hne
    have hv16 : v < 16 := by simpa using hv
    rw [toDigits_lt 16 v hv16]
    simp only [List.length_singleton, Nat.sub_self, pow_zero]
    omega
  | succ e ih =>
    intro v hv hne
    by_cases hv16 : v < 16
    · rw [toDigits_lt 16 v hv16]
      simp only [List.length_singleton, Nat.sub_self, pow_zero]
      omega
    · have hq : v / 16 < 16 ^ (e + 1) := by
        rw [Nat.div_lt_iff_lt_mul (by decide)]
        rw [pow_succ] at hv
        exact hv
      have hq0 : v / 16 ≠ 0 := by omega
      have i1 := ih (v / 16) hq hq0
      have i2 := (toDigits_hex e (v / 16) hq).1
      rw [toDigits_ge 16 v (by decide) (by omega)]
      simp only [List.length_append, List.length_singleton, Nat.add_sub_cancel]
      have e1 : (Nat.toDigits 16 (v / 16)).length
          = ((Nat.toDigits 16 (v / 16)).length - 1) + 1 := by omega
      rw [e1, pow_succ]
      omega

theorem groupValue_lt (Byte : Fin 16 → Fin 256) (k : Fin 8) : groupValue Byte k < 16 ^ (3 + 1) := by
  have h1 := (Byte ⟨2 * k.val, by omega⟩).isLt
  have h2 := (Byte ⟨2 * k.val + 1, by omega⟩).isLt
  simp only [groupValue]
  norm_num
  omega

theorem render_address (Byte : Fin 16 → Fin 256) :
    render (List.intersperse (⟨":", []⟩ : Printf) ((List.finRange 8).map (groupCall Byte))
        ++ [⟨"\n", []⟩])
      = String.intercalate ":" ((List.finRange 8).map (fun k => hexNumeral (groupValue Byte k)))
        ++ "\n" := by
  have hc : Printf.text ⟨":", []⟩ = ":" := by decide
  have hn : Printf.text ⟨"\n", []⟩ = "\n" := by decide
  have hf : List.finRange 8 = [0, 1, 2, 3, 4, 5, 6, 7] := by decide
  simp only [hf, render, List.map_cons, List.map_nil, List.intersperse, List.cons_append,
    List.nil_append, List.map_append, group_text, hc, hn, String.join, List.foldl_cons,
    List.foldl_nil, String.intercalate, String.intercalate.go, String.append_assoc,
    String.empty_append]
  rfl

/-- C1: on the 3-byte buffer `[0x00, 0x00, 0x00]` with `length = 3` the padding loop of
`picoquic_log_frames` goes on after the last byte of the buffer: it reads index 3, which is
not below `length`, so the claim that no index `>= length` is ever read fails on the code. -/
theorem frames_padding_run_reads_past_length :
    (picoquic_log_frames ⟨[0x00, 0x00, 0x00], 0⟩ 3).run
        = (Outcome.oob, ⟨[], [0, 0, 0, 0, 1, 2, 3]⟩)
      ∧ ∃ i ∈ (picoquic_log_frames ⟨[0x00, 0x00, 0x00], 0⟩ 3).run.2.reads, 3 ≤ i := by
  have h : (picoquic_log_frames ⟨[0x00, 0x00, 0x00], 0⟩ 3).run
      = (Outcome.oob, ⟨[], [0, 0, 0, 0, 1, 2, 3]⟩) := by decide
  refine ⟨h, 3, ?_, le_refl 3⟩
  rw [h]
  decide

/-- C2: the 7-byte ack frame `[0xA4, 0x00, 0x01, 0x02, 0x00, 0x00, 0x05]` (2-byte largest
field, 1-byte range, no block count, no timestamps) requires exactly 7 bytes, so the size
check passes; the decoder then renders the largest value and the first range and, because
the 1-byte range moves the cursor by two, ends the line with "malformed!": the trailing
branch is reached after fields have been rendered. -/
theorem ack_frame_malformed_after_fields :
    ackRequired 0xA4 0 0 = 7
      ∧ ack_min_size 1 0 0 0 2 = 7
      ∧ (picoquic_log_ack_frame ⟨[0xA4, 0x00, 0x01, 0x02, 0x00, 0x00, 0x05], 0⟩ 7).run
        = (Outcome.ret 7,
            ⟨[⟨"    ACK (nb=%d, nt=%d),", [Arg.num 0, Arg.num 0]⟩,
              ⟨"Largest = %04x, ", [Arg.num 0x0102]⟩,
              ⟨"range: %llx, ", [Arg.num 5]⟩,
              ⟨"malformed!\n", []⟩],
             [0, 1, 2, 3, 6]⟩) := by
  refine ⟨by decide, by decide, by decide⟩

/-- C3: the ack frame `[0xA4, 0x00, 0x01, 0x02, 0x00, 0x00, 0x05]` has no block count, no
timestamps, a 2-byte largest field and a 1-byte range, so the consumed count of the claim
is `1 + 1 + 2 + 2 + 1 = 7`.  With 8 bytes available the decoder returns 8, and with
exactly 7 bytes available it returns 7 after writing "malformed!". -/
theorem ack_frame_one_byte_range_consumes_two :
    ackHeader 0xA4 + largestWidth 0xA4 + 2 + rangeWidth 0xA4 = 7
      ∧ (picoquic_log_ack_frame ⟨[0xA4, 0x00, 0x01, 0x02, 0x00, 0x00, 0x05, 0x00], 0⟩ 8).run
        = (Outcome.ret 8,
            ⟨[⟨"    ACK (nb=%d, nt=%d),", [Arg.num 0, Arg.num 0]⟩,
              ⟨"Largest = %04x, ", [Arg.num 0x0102]⟩,
              ⟨"range: %llx, ", [Arg.num 5]⟩,
              ⟨"\n", []⟩],
             [0, 1, 2, 3, 6]⟩)
      ∧ ⟨"malformed!\n", []⟩
          ∈ (picoquic_log_ack_frame ⟨[0xA4, 0x00, 0x01, 0x02, 0x00, 0x00, 0x05], 0⟩ 7).run.2.out := by
  refine ⟨by decide, by decide, by decide⟩

/-- C4 as stated fails: for the 10-byte buffer of the scenario no stream frame line with
stream id 5, offset 0 and length 4 is written. -/
theorem frames_scenario_length_is_not_four :
    streamLine 5 0 4 ∉ (picoquic_log_frames
      ⟨[0x00, 0x00, 0x00, 0xC0, 0x05, 0x00, 0x00, 0x00, 0x00, 0x00], 0⟩ 10).run.2.out := by
  rw [frames_scenario_run]
  decide

/-- C4, amended: decoding the 10-byte buffer
`[0x00,0x00,0x00,0xC0,0x05,0x00,0x00,0x00,0x00,0x00]` writes "Padding, 3 bytes" followed by
one stream frame line with stream id 5, offset 0 and length 5 (the five bytes that follow
the stream id), the loop is left with the cursor at 10, the end of the buffer, and nothing
else is written. -/
theorem frames_scenario_padding_then_stream :
    (picoquic_log_frames_loop
        ⟨[0x00, 0x00, 0x00, 0xC0, 0x05, 0x00, 0x00, 0x00, 0x00, 0x00], 0⟩ 10 11 0).run.1
        = Outcome.ret 10
      ∧ (picoquic_log_frames
          ⟨[0x00, 0x00, 0x00, 0xC0, 0x05, 0x00, 0x00, 0x00, 0x00, 0x00], 0⟩ 10).run
        = (Outcome.ret (),
            ⟨[⟨"Padding, %d bytes\n", [Arg.num 3]⟩, streamLine 5 0 5, ⟨": ", []⟩,
              ⟨"%02x", [Arg.num 0]⟩, ⟨"%02x", [Arg.num 0]⟩, ⟨"%02x", [Arg.num 0]⟩,
              ⟨"%02x", [Arg.num 0]⟩, ⟨"%02x", [Arg.num 0]⟩, ⟨"%s\n", [Arg.str ""]⟩],
             [0, 0, 0, 0, 1, 2, 3, 3, 3, 4, 5, 6, 7, 8, 9]⟩)
      ∧ render [⟨"Padding, %d bytes\n", [Arg.num 3]⟩, streamLine 5 0 5, ⟨": ", []⟩,
              ⟨"%02x", [Arg.num 0]⟩, ⟨"%02x", [Arg.num 0]⟩, ⟨"%02x", [Arg.num 0]⟩,
              ⟨"%02x", [Arg.num 0]⟩, ⟨"%02x", [Arg.num 0]⟩, ⟨"%s\n", [Arg.str ""]⟩]
        = "Padding, 3 bytes\n    Stream 5, offset 0, length 5: 0000000000\n" := by
  refine ⟨by decide!, frames_scenario_run, by decide⟩

/-- C5: the frame-name table names tag `0x01` CONNECTION_CLOSE.  On the 9-byte buffer
`[0x01, 0, 0, 0, 0, 0, 0, 0xC0, 0x05]` the decoder writes "CONNECTION_CLOSE frame" and sets
the cursor to 9, the end of the buffer, instead of advancing it by 7: the stream frame at
index 7 is not decoded.  The 7-byte skip is taken for tag `0x02`, which the table names
RST_STREAM. -/
theorem frames_connection_close_name_abandons :
    picoquic_log_frame_names.getD 0x01 "" = "CONNECTION_CLOSE"
      ∧ (picoquic_log_frames_body ⟨[0x01, 0, 0, 0, 0, 0, 0, 0xC0, 0x05], 0⟩ 9 0).run
        = (Outcome.ret 9, ⟨[⟨"    %s frame\n", [Arg.str "CONNECTION_CLOSE"]⟩], [0, 0, 0, 0]⟩)
      ∧ (picoquic_log_frames ⟨[0x01, 0, 0, 0, 0, 0, 0, 0xC0, 0x05], 0⟩ 9).run
        = (Outcome.ret (), ⟨[⟨"    %s frame\n", [Arg.str "CONNECTION_CLOSE"]⟩], [0, 0, 0, 0]⟩)
      ∧ (picoquic_log_frames_body ⟨[0x02, 0, 0, 0, 0, 0, 0, 0xC0, 0x05], 0⟩ 9 0).run
        = (Outcome.ret 7, ⟨[⟨"    %s frame\n", [Arg.str "RST_STREAM"]⟩], [0, 0, 0, 0]⟩) := by
  refine ⟨by decide, by decide, by decide, by decide⟩

/-- C6: a stream frame slice whose tag byte declares fixed fields that do not fit in the
slice (`available < 1 + idWidth + offsetWidth + (2 if the explicit-length bit is set)`) is
rendered as the single line "Malformed stream frame.", only the tag byte (index 0) is
read, and the consumed count returned is the whole available length. -/
theorem stream_frame_fixed_fields_do_not_fit (t : Fin 256) (rest : List (Fin 256))
    (h : (t :: rest).length
          < 1 + idWidth t.val + offsetWidth t.val + (if explicitLength t.val then 2 else 0)) :
    (picoquic_log_stream_frame ⟨t :: rest, 0⟩ (t :: rest).length).run
      = (Outcome.ret ((t :: rest).length : Int),
          ⟨[⟨"    Malformed stream frame.\n", []⟩], [0]⟩) := by
  have hs := stream_frame_apply ⟨t :: rest, 0⟩ (t :: rest).length ⟨[], []⟩
    (by simp) (by simp)
  have ht : field (t :: rest) 0 1 = t.val := by
    rw [field_one _ _ (by simp)]; rfl
  simp only [Nat.zero_add, ht] at hs
  rw [if_pos h] at hs
  have hsmall : (t :: rest).length < 2 ^ 31 := by
    unfold idWidth offsetWidth at h
    split_ifs at h <;> omega
  unfold M.run
  rw [stream_frame_ret _ _ _ _ _ hs, size_t_to_int_of_lt _ hsmall]
  rfl

/-- C6 on the slice `[0xDF, 0x01, 0x02]`: the tag asks for 4 + 8 + 2 bytes after it. -/
theorem stream_frame_fixed_fields_do_not_fit_witness :
    ([0xDF, 0x01, 0x02] : List (Fin 256)).length
        < 1 + idWidth 0xDF + offsetWidth 0xDF + (if explicitLength 0xDF then 2 else 0)
      ∧ (picoquic_log_stream_frame ⟨[0xDF, 0x01, 0x02], 0⟩ 3).run
          = (Outcome.ret 3, ⟨[⟨"    Malformed stream frame.\n", []⟩], [0]⟩) :=
  ⟨by decide, stream_frame_fixed_fields_do_not_fit 0xDF [0x01, 0x02] (by decide)⟩

/-- C8: a stream frame slice with the explicit-length flag set whose fixed fields fit, with
`L` the 16-bit length field.  If `1 + idWidth + offsetWidth + 2 + L <= available`, the frame
is rendered with its stream id, offset and length `L`, followed by a hex preview of exactly
the first `min 8 L` payload bytes and by "..." exactly when `L > 8`, and the count returned
is `1 + idWidth + offsetWidth + 2 + L`.  Otherwise the stream line is followed by the
malformed trailer only, no payload byte is read, and the count returned is the whole
available length. -/
theorem stream_frame_explicit_length (t : Fin 256) (rest : List (Fin 256))
    (hflag : explicitLength t.val = true)
    (hfit : 1 + idWidth t.val + offsetWidth t.val + 2 ≤ (t :: rest).length) :
    (1 + idWidth t.val + offsetWidth t.val + 2
          + field (t :: rest) (1 + idWidth t.val + offsetWidth t.val) 2 ≤ (t :: rest).length →
        (picoquic_log_stream_frame ⟨t :: rest, 0⟩ (t :: rest).length).run
          = (Outcome.ret ((1 + idWidth t.val + offsetWidth t.val + 2
                + field (t :: rest) (1 + idWidth t.val + offsetWidth t.val) 2 : Nat) : Int),
              ⟨[streamLine (field (t :: rest) 1 (idWidth t.val))
                    (field (t :: rest) (1 + idWidth t.val) (offsetWidth t.val))
                    (field (t :: rest) (1 + idWidth t.val + offsetWidth t.val) 2),
                  ⟨": ", []⟩]
                ++ hexPreview (((t :: rest).drop (1 + idWidth t.val + offsetWidth t.val + 2)).take
                    (min 8 (field (t :: rest) (1 + idWidth t.val + offsetWidth t.val) 2)))
                ++ [⟨"%s\n", [Arg.str
                    (if field (t :: rest) (1 + idWidth t.val + offsetWidth t.val) 2 > 8
                      then "..." else "")]⟩],
               List.range' 0 (1 + idWidth t.val + offsetWidth t.val + 2)
                ++ List.range' (1 + idWidth t.val + offsetWidth t.val + 2)
                    (min 8 (field (t :: rest) (1 + idWidth t.val + offsetWidth t.val) 2))⟩))
      ∧ ((t :: rest).length < 1 + idWidth t.val + offsetWidth t.val + 2
            + field (t :: rest) (1 + idWidth t.val + offsetWidth t.val) 2 →
        (picoquic_log_stream_frame ⟨t :: rest, 0⟩ (t :: rest).length).run
          = (Outcome.ret ((t :: rest).length : Int),
              ⟨[streamLine (field (t :: rest) 1 (idWidth t.val))
                    (field (t :: rest) (1 + idWidth t.val) (offsetWidth t.val))
                    (field (t :: rest) (1 + idWidth t.val + offsetWidth t.val) 2),
                  ⟨", malformed!\n", []⟩],
               List.range' 0 (1 + idWidth t.val + offsetWidth t.val + 2)⟩)) := by
  have hs := stream_frame_apply ⟨t :: rest, 0⟩ (t :: rest).length ⟨[], []⟩
    (by simp) (by simp)
  simp only [Nat.zero_add, field_head, hflag, if_true] at hs
  rw [if_neg (by omega)] at hs
  have hL : field (t :: rest) (1 + idWidth t.val + offsetWidth t.val) 2 < 65536 :=
    field_lt _ _ 2
  have hid : idWidth t.val ≤ 4 := by unfold idWidth; omega
  have hoff : offsetWidth t.val ≤ 8 := by unfold offsetWidth; split_ifs <;> omega
  unfold M.run
  constructor
  · intro h
    rw [if_neg (by omega)] at hs
    rw [stream_frame_ret _ _ _ _ _ hs, size_t_to_int_of_lt _ (by omega)]
    simp only [List.nil_append]
  · intro h
    rw [if_pos (by omega)] at hs
    rw [stream_frame_ret _ _ _ _ _ hs, size_t_to_int_of_lt _ (by omega)]
    simp only [List.nil_append]

/-- C8 on the slice `[0xC1, 0x05, 0x00, 0x02, 0xAA, 0xBB, 0xCC]`: the length field is 2 and
the frame ends one byte before the end of the slice. -/
theorem stream_frame_explicit_length_witness :
    explicitLength (0xC1 : Fin 256).val = true
      ∧ 1 + idWidth (0xC1 : Fin 256).val + offsetWidth (0xC1 : Fin 256).val + 2
          ≤ ([0xC1, 0x05, 0x00, 0x02, 0xAA, 0xBB, 0xCC] : List (Fin 256)).length
      ∧ (picoquic_log_stream_frame ⟨[0xC1, 0x05, 0x00, 0x02, 0xAA, 0xBB, 0xCC], 0⟩ 7).run
          = (Outcome.ret 6,
              ⟨[streamLine 5 0 2, ⟨": ", []⟩, ⟨"%02x", [Arg.num 0xAA]⟩, ⟨"%02x", [Arg.num 0xBB]⟩,
                  ⟨"%s\n", [Arg.str ""]⟩],
               [0, 1, 2, 3, 4, 5]⟩) :=
  ⟨by decide, by decide,
    ((stream_frame_explicit_length 0xC1 [0x05, 0x00, 0x02, 0xAA, 0xBB, 0xCC]
      (by decide) (by decide)).1 (by decide)).trans (by decide)⟩

/-- C9: an ack frame slice whose computed total required size (header bytes, largest field,
2-byte delay, first range, `num_block * (1 + rangeWidth)`, and `2 + 3 * num_ts` when
`num_ts > 0`) exceeds the available length is rendered as exactly one "Malformed ACK" line
("Malformed ACK frame" when fewer than 3 bytes are available, "Malformed ACK, requires ..."
otherwise), no field of the frame is rendered, and the consumed count returned is the whole
available length.  The block and timestamp counts are the header bytes of the slice; a count
byte that lies beyond the end of the slice counts as zero. -/
theorem ack_frame_required_size_exceeds_available (t : Fin 256) (rest : List (Fin 256))
    (h : (t :: rest).length
          < ackRequired t.val (ackNumBlock (t :: rest)) (ackNumTs (t :: rest))) :
    (picoquic_log_ack_frame ⟨t :: rest, 0⟩ (t :: rest).length).run.1
        = Outcome.ret (t :: rest).length
      ∧ (picoquic_log_ack_frame ⟨t :: rest, 0⟩ (t :: rest).length).run.2.out
        = [if (t :: rest).length < 3 then ⟨"    Malformed ACK frame\n", []⟩
            else ⟨"    Malformed ACK, requires %d bytes out of %d\n",
              [Arg.num (ackRequired t.val (ackNumBlock (t :: rest)) (ackNumTs (t :: rest))),
                Arg.num (t :: rest).length]⟩] := by
  have hs := ack_frame_malformed_apply ⟨t :: rest, 0⟩ (t :: rest).length ⟨[], []⟩
    (by simp) (by simp) (by simpa only [List.drop_zero, field_head] using h)
  unfold M.run
  rw [hs]
  simp only [List.drop_zero, field_head, List.nil_append]
  split_ifs <;> simp

/-- C9 on a 10-byte slice with tag `0xB5` and two blocks: 15 bytes are required. -/
theorem ack_frame_required_size_exceeds_available_witness :
    ([0xB5, 0x02, 0x00, 0x01, 0x02, 0x03, 0x04, 0x05, 0x06, 0x07] : List (Fin 256)).length
        < ackRequired (0xB5 : Fin 256).val
            (ackNumBlock [0xB5, 0x02, 0x00, 0x01, 0x02, 0x03, 0x04, 0x05, 0x06, 0x07])
            (ackNumTs [0xB5, 0x02, 0x00, 0x01, 0x02, 0x03, 0x04, 0x05, 0x06, 0x07])
      ∧ (picoquic_log_ack_frame
            ⟨[0xB5, 0x02, 0x00, 0x01, 0x02, 0x03, 0x04, 0x05, 0x06, 0x07], 0⟩ 10).run.1
          = Outcome.ret 10
      ∧ (picoquic_log_ack_frame
            ⟨[0xB5, 0x02, 0x00, 0x01, 0x02, 0x03, 0x04, 0x05, 0x06, 0x07], 0⟩ 10).run.2.out
          = [⟨"    Malformed ACK, requires %d bytes out of %d\n", [Arg.num 15, Arg.num 10]⟩] :=
  ⟨by decide,
    (ack_frame_required_size_exceeds_available 0xB5
      [0x02, 0x00, 0x01, 0x02, 0x03, 0x04, 0x05, 0x06, 0x07] (by decide)).1,
    (ack_frame_required_size_exceeds_available 0xB5
      [0x02, 0x00, 0x01, 0x02, 0x03, 0x04, 0x05, 0x06, 0x07] (by decide)).2.trans (by decide)⟩

/-- C10: the tag byte `t` at the cursor of `picoquic_log_frames` selects the branch of the
loop body: `t >= 0xC0` runs the stream frame decoder on the rest of the buffer,
`0xA0 < t < 0xC0` runs the ack frame decoder on it, `t = 0` runs the padding loop and
prints the padding line, and every other `t` (`0x01..0xA0`) prints the name found in the
frame-name table when `t <= 0x0b` and "Unknown frame, type: t" otherwise.  The four
conditions exclude one another and one of them holds for every byte value. -/
theorem frames_dispatch_by_tag (bytes : List (Fin 256)) (length i : Nat) (s : Trace)
    (hi : i < bytes.length) :
    (0xC0 ≤ (bytes.get ⟨i, hi⟩).val →
        picoquic_log_frames_body ⟨bytes, 0⟩ length i s
          = (do
              let n ← picoquic_log_stream_frame ⟨bytes, i⟩ (length - i)
              pure (size_t_add_int i n)) ⟨s.out, s.reads ++ [i]⟩)
      ∧ (0xA0 < (bytes.get ⟨i, hi⟩).val ∧ (bytes.get ⟨i, hi⟩).val < 0xC0 →
        picoquic_log_frames_body ⟨bytes, 0⟩ length i s
          = (do
              let n ← picoquic_log_ack_frame ⟨bytes, i⟩ (length - i)
              pure (i + n)) ⟨s.out, s.reads ++ [i, i]⟩)
      ∧ ((bytes.get ⟨i, hi⟩).val = 0 →
        picoquic_log_frames_body ⟨bytes, 0⟩ length i s
          = (do
              let r ← padding_run ⟨bytes, 0⟩ (bytes.length + 1) i 0
              fprintf "Padding, %d bytes\n" [Arg.num r.2]
              pure r.1) ⟨s.out, s.reads ++ [i, i, i]⟩)
      ∧ (0 < (bytes.get ⟨i, hi⟩).val ∧ (bytes.get ⟨i, hi⟩).val ≤ 0xA0 →
        picoquic_log_frames_body ⟨bytes, 0⟩ length i s
          = (Outcome.ret (if (bytes.get ⟨i, hi⟩).val = 0x02 then i + 7 else length),
              ⟨s.out ++ [if (bytes.get ⟨i, hi⟩).val ≤ 0x0b then
                    ⟨"    %s frame\n",
                      [Arg.str (picoquic_log_frame_names.getD (bytes.get ⟨i, hi⟩).val "")]⟩
                  else ⟨"    Unknown frame, type: %x\n", [Arg.num (bytes.get ⟨i, hi⟩).val]⟩],
               s.reads ++ [i, i, i, i]⟩))
      ∧ (0xC0 ≤ (bytes.get ⟨i, hi⟩).val
          ∨ (0xA0 < (bytes.get ⟨i, hi⟩).val ∧ (bytes.get ⟨i, hi⟩).val < 0xC0)
          ∨ (bytes.get ⟨i, hi⟩).val = 0
          ∨ (0 < (bytes.get ⟨i, hi⟩).val ∧ (bytes.get ⟨i, hi⟩).val ≤ 0xA0))
      ∧ ¬ (0xC0 ≤ (bytes.get ⟨i, hi⟩).val
            ∧ 0xA0 < (bytes.get ⟨i, hi⟩).val ∧ (bytes.get ⟨i, hi⟩).val < 0xC0)
      ∧ ¬ (0xC0 ≤ (bytes.get ⟨i, hi⟩).val ∧ (bytes.get ⟨i, hi⟩).val = 0)
      ∧ ¬ (0xC0 ≤ (bytes.get ⟨i, hi⟩).val
            ∧ 0 < (bytes.get ⟨i, hi⟩).val ∧ (bytes.get ⟨i, hi⟩).val ≤ 0xA0)
      ∧ ¬ ((0xA0 < (bytes.get ⟨i, hi⟩).val ∧ (bytes.get ⟨i, hi⟩).val < 0xC0)
            ∧ (bytes.get ⟨i, hi⟩).val = 0)
      ∧ ¬ ((0xA0 < (bytes.get ⟨i, hi⟩).val ∧ (bytes.get ⟨i, hi⟩).val < 0xC0)
            ∧ 0 < (bytes.get ⟨i, hi⟩).val ∧ (bytes.get ⟨i, hi⟩).val ≤ 0xA0)
      ∧ ¬ ((bytes.get ⟨i, hi⟩).val = 0
            ∧ 0 < (bytes.get ⟨i, hi⟩).val ∧ (bytes.get ⟨i, hi⟩).val ≤ 0xA0) := by
  have hr : ∀ s1 : Trace, read ⟨bytes, 0⟩ i s1
      = (Outcome.ret (bytes.get ⟨i, hi⟩).val, ⟨s1.out, s1.reads ++ [i]⟩) := by
    intro s1
    have h := read_apply ⟨bytes, 0⟩ i s1 (by simpa using hi)
    simp only [Nat.zero_add] at h
    rw [h, field_one _ _ hi]
  generalize (bytes.get ⟨i, hi⟩).val = t at hr ⊢
  refine ⟨?_, ?_, ?_, ?_, by omega, by omega, by omega, by omega, by omega, by omega, by omega⟩
  · intro ht
    unfold picoquic_log_frames_body
    simp only [bind_apply, hr, ge_iff_le, ht, if_true, Ptr.add, Nat.zero_add, pure_apply]
  · intro ht
    unfold picoquic_log_frames_body
    have h1 : ¬ (192 ≤ t) := by omega
    simp only [bind_apply, hr, ge_iff_le, h1, if_false, gt_iff_lt, ht.1, if_true, Ptr.add,
      Nat.zero_add, pure_apply, List.append_assoc, List.singleton_append]
  · intro ht
    unfold picoquic_log_frames_body
    subst ht
    simp only [bind_apply, hr, ge_iff_le, if_false, gt_iff_lt, if_true, Ptr.add,
      Nat.zero_add, pure_apply, List.append_assoc, List.singleton_append, Nat.reduceLeDiff,
      Nat.not_lt_zero, Nat.reduceLT, fprintf_apply]
    rfl
  · intro ht
    unfold picoquic_log_frames_body
    have h1 : ¬ (192 ≤ t) := by omega
    have h2 : ¬ (160 < t) := by omega
    have h3 : ¬ (t = 0) := by omega
    simp only [bind_apply, hr, ge_iff_le, h1, h2, h3, if_false, gt_iff_lt, pure_apply,
      List.append_assoc, List.singleton_append, List.cons_append, List.nil_append]
    have hnb : picoquic_nb_log_frame_names = 12 := rfl
    split
    · rename_i hn
      have hle : t ≤ 11 := by omega
      have hget : picoquic_log_frame_names.getD t "" = picoquic_log_frame_names.get ⟨t, hn⟩ := by
        rw [List.getD_eq_getElem _ _ hn]; rfl
      simp only [bind_apply, fprintf_apply, hle, if_true, hget]
      split
      · simp [pure_apply]
      · rename_i h2
        have : ¬ t = 2 := fun e => h2 e
        simp [pure_apply, this]
    · rename_i hn
      have hle : ¬ t ≤ 11 := by omega
      simp only [bind_apply, fprintf_apply, hle, if_false]
      split
      · omega
      · rename_i h2
        have : ¬ t = 2 := fun e => h2 e
        simp [pure_apply, this]

/-- C10 at cursor 3 of `[0x00, 0x00, 0x00, 0xC0, 0x05]`: the tag `0xC0` selects the stream
frame decoder. -/
theorem frames_dispatch_by_tag_witness :
    3 < ([0x00, 0x00, 0x00, 0xC0, 0x05] : List (Fin 256)).length
      ∧ picoquic_log_frames_body ⟨[0x00, 0x00, 0x00, 0xC0, 0x05], 0⟩ 5 3 ⟨[], []⟩
          = (do
              let n ← picoquic_log_stream_frame ⟨[0x00, 0x00, 0x00, 0xC0, 0x05], 3⟩ (5 - 3)
              pure (size_t_add_int 3 n)) ⟨[], [] ++ [3]⟩ :=
  ⟨by decide,
    (frames_dispatch_by_tag [0x00, 0x00, 0x00, 0xC0, 0x05] 5 3 ⟨[], []⟩ (by decide)).1
      (by decide)⟩

/-- C11: a run of `K >= 1` zero bytes that starts at the cursor `i < length` and is followed
inside the buffer by a non-zero byte makes one pass of the loop of `picoquic_log_frames`
write exactly one line, "Padding, K bytes", and leave the cursor at `i + K`, the byte
immediately after the run: the loop goes on from there. -/
theorem padding_run_renders_one_line (bytes : List (Fin 256)) (length i K fuel : Nat)
    (s : Trace) (b : Fin 256) (hK : 1 ≤ K) (hi : i < length)
    (hz : ∀ j, j < K → bytes[i + j]? = some 0)
    (hb : bytes[i + K]? = some b) (hnz : b ≠ 0) :
    picoquic_log_frames_body ⟨bytes, 0⟩ length i s
        = (Outcome.ret (i + K),
            ⟨s.out ++ [⟨"Padding, %d bytes\n", [Arg.num K]⟩],
             s.reads ++ [i, i, i] ++ List.range' i (K + 1)⟩)
      ∧ picoquic_log_frames_loop ⟨bytes, 0⟩ length (fuel + 1) i s
        = picoquic_log_frames_loop ⟨bytes, 0⟩ length fuel (i + K)
            ⟨s.out ++ [⟨"Padding, %d bytes\n", [Arg.num K]⟩],
             s.reads ++ [i, i, i] ++ List.range' i (K + 1)⟩ := by
  have hlen : i + K < bytes.length := by
    have := List.getElem?_eq_some.mp hb
    exact this.1
  have hbody : picoquic_log_frames_body ⟨bytes, 0⟩ length i s
        = (Outcome.ret (i + K),
            ⟨s.out ++ [⟨"Padding, %d bytes\n", [Arg.num K]⟩],
             s.reads ++ [i, i, i] ++ List.range' i (K + 1)⟩) := by
    rw [body_padding_apply ⟨bytes, 0⟩ length i s (by simpa using hz 0 (by omega))]
    simp only [bind_apply]
    rw [padding_run_apply ⟨bytes, 0⟩ b K (bytes.length + 1) i 0 _ (by omega)
      (fun j hj => by simpa using hz j hj) (by simpa using hb) hnz]
    simp only [fprintf_apply, pure_apply, Nat.zero_add, List.append_assoc]
  refine ⟨hbody, ?_⟩
  rw [picoquic_log_frames_loop]
  simp only [hi, if_true, bind_apply, hbody]

theorem padding_run_renders_one_line_witness :
    1 ≤ 3 ∧ 0 < 10
      ∧ (∀ j, j < 3 → ([0x00, 0x00, 0x00, 0xC0, 0x05, 0x00, 0x00, 0x00, 0x00, 0x00]
            : List (Fin 256))[0 + j]? = some 0)
      ∧ ([0x00, 0x00, 0x00, 0xC0, 0x05, 0x00, 0x00, 0x00, 0x00, 0x00]
            : List (Fin 256))[0 + 3]? = some 0xC0
      ∧ (0xC0 : Fin 256) ≠ 0
      ∧ picoquic_log_frames_body
          ⟨[0x00, 0x00, 0x00, 0xC0, 0x05, 0x00, 0x00, 0x00, 0x00, 0x00], 0⟩ 10 0 ⟨[], []⟩
        = (Outcome.ret (0 + 3),
            ⟨[] ++ [⟨"Padding, %d bytes\n", [Arg.num 3]⟩],
             [] ++ [0, 0, 0] ++ List.range' 0 (3 + 1)⟩) :=
  ⟨by decide, by decide, by decide, by decide, by decide,
    (padding_run_renders_one_line [0x00, 0x00, 0x00, 0xC0, 0x05, 0x00, 0x00, 0x00, 0x00, 0x00]
      10 0 3 0 ⟨[], []⟩ 0xC0 (by decide) (by decide) (by decide) (by decide) (by decide)).1⟩

/-- C12: when the tag byte at the cursor `i < length` is neither a stream tag, an ack tag,
padding, nor the fixed-skip type `0x02`, the loop of `picoquic_log_frames` writes exactly
one line for the frame (its name from the table when the tag is at most `0x0b`,
"Unknown frame, type: tag" above), sets the cursor to `length` and stops: nothing is
written or read for the bytes that follow. -/
theorem unimplemented_frame_abandons_packet (bytes : List (Fin 256)) (length i fuel : Nat)
    (s : Trace) (b : Fin 256) (hi : i < length) (hb : bytes[i]? = some b)
    (h0 : 0 < b.val) (hA : b.val ≤ 0xA0) (h2 : b.val ≠ 0x02) :
    picoquic_log_frames_loop ⟨bytes, 0⟩ length (fuel + 2) i s
      = (Outcome.ret length,
          ⟨s.out ++ [if b.val ≤ 0x0b then
                ⟨"    %s frame\n", [Arg.str (picoquic_log_frame_names.getD b.val "")]⟩
              else ⟨"    Unknown frame, type: %x\n", [Arg.num b.val]⟩],
           s.reads ++ [i, i, i, i]⟩) := by
  rw [picoquic_log_frames_loop]
  simp only [hi, if_true, bind_apply]
  rw [body_other_apply ⟨bytes, 0⟩ length i b s (by simpa using hb) h0 hA]
  simp only [h2, if_false, Nat.zero_add]
  rw [picoquic_log_frames_loop]
  simp only [Nat.lt_irrefl, if_false, pure_apply]

theorem unimplemented_frame_abandons_packet_witness :
    0 < 9 ∧ ([0x07, 0x00, 0xC0, 0x05, 0x00, 0x00, 0x00, 0x00, 0x00] : List (Fin 256))[0]?
        = some 0x07
      ∧ 0 < (0x07 : Fin 256).val ∧ (0x07 : Fin 256).val ≤ 0xA0 ∧ (0x07 : Fin 256).val ≠ 0x02
      ∧ picoquic_log_frames_loop
          ⟨[0x07, 0x00, 0xC0, 0x05, 0x00, 0x00, 0x00, 0x00, 0x00], 0⟩ 9 (8 + 2) 0 ⟨[], []⟩
        = (Outcome.ret 9, ⟨[⟨"    %s frame\n", [Arg.str "PING"]⟩], [0, 0, 0, 0]⟩) :=
  ⟨by decide, by decide, by decide, by decide, by decide,
    (unimplemented_frame_abandons_packet
      [0x07, 0x00, 0xC0, 0x05, 0x00, 0x00, 0x00, 0x00, 0x00] 9 0 8 ⟨[], []⟩ 0x07
      (by decide) (by decide) (by decide) (by decide) (by decide)).trans (by decide)⟩

/-- C14: when the stream frame decoder or the ack frame decoder, run by
`picoquic_log_frames` at cursor `i < length`, returns after a `fprintf` call that reports
the frame as malformed, the count it returns is `length - i`; the loop then stops with the
cursor at `length`, and the trace it ends with is the one the decoder left: the output
rendered before the frame followed by what the decoder wrote for it, and no later byte is
read. -/
theorem malformed_frame_ends_decoding (bytes : List (Fin 256)) (length i fuel n : Nat)
    (m : Int) (s s1 : Trace) (b : Fin 256) (hi : i < length) (hb : bytes[i]? = some b) :
    (0xC0 ≤ b.val →
        picoquic_log_stream_frame ⟨bytes, i⟩ (length - i) ⟨s.out, s.reads ++ [i]⟩
          = (Outcome.ret m, s1) →
        reportsMalformed (s1.out.drop s.out.length) →
        m = ((length - i : Nat) : Int) ∧ s.out <+: s1.out
          ∧ picoquic_log_frames_loop ⟨bytes, 0⟩ length (fuel + 2) i s = (Outcome.ret length, s1))
      ∧ (0xA0 < b.val ∧ b.val < 0xC0 →
        picoquic_log_ack_frame ⟨bytes, i⟩ (length - i) ⟨s.out, s.reads ++ [i, i]⟩
          = (Outcome.ret n, s1) →
        reportsMalformed (s1.out.drop s.out.length) →
        n = length - i ∧ s.out <+: s1.out
          ∧ picoquic_log_frames_loop ⟨bytes, 0⟩ length (fuel + 2) i s
              = (Outcome.ret length, s1)) := by
  have hb0 : (⟨bytes, 0⟩ : Ptr).buf[(⟨bytes, 0⟩ : Ptr).base + i]? = some b := by
    simpa using hb
  have hadd : (⟨bytes, 0⟩ : Ptr).add i = ⟨bytes, i⟩ := by simp [Ptr.add]
  have hstop : ∀ s2 : Trace, picoquic_log_frames_loop ⟨bytes, 0⟩ length (fuel + 1) length s2
      = (Outcome.ret length, s2) := by
    intro s2
    rw [picoquic_log_frames_loop]
    simp only [Nat.lt_irrefl, if_false, pure_apply]
  constructor
  · intro ht hr hm
    obtain ⟨c, hc, hmc⟩ := stream_frame_ret_inv _ _ _ _ _ hr
    obtain ⟨_, ext, hext, himp⟩ := sat_ret _ _ _
      (sat_stream_frame ⟨bytes, i⟩ (length - i) (by omega)) _ _ _ hc
    have hd : s1.out.drop s.out.length = ext := by
      rw [hext]; exact List.drop_left _ _
    obtain ⟨hcn, hsmall⟩ := himp (hd ▸ hm)
    have hm2 : m = ((length - i : Nat) : Int) := by
      rw [hmc, hcn, size_t_to_int_of_lt _ (by omega)]
    refine ⟨hm2, ⟨ext, hext.symm⟩, ?_⟩
    rw [picoquic_log_frames_loop]
    simp only [hi, if_true]
    rw [bind_apply, body_stream_apply ⟨bytes, 0⟩ length i b s hb0 ht, hadd, bind_apply]
    simp only [Nat.zero_add, hr, pure_apply]
    rw [hm2, size_t_add_int_nat]
    have e : i + (length - i) = length := by omega
    rw [e, hstop]
  · intro ht hr hm
    obtain ⟨_, ext, hext, himp⟩ := sat_ret _ _ _
      (sat_ack_frame ⟨bytes, i⟩ (length - i) (by omega)) _ _ _ hr
    have hd : s1.out.drop s.out.length = ext := by
      rw [hext]; exact List.drop_left _ _
    have hn : n = length - i := himp (hd ▸ hm)
    refine ⟨hn, ⟨ext, hext.symm⟩, ?_⟩
    rw [picoquic_log_frames_loop]
    simp only [hi, if_true]
    rw [bind_apply, body_ack_apply ⟨bytes, 0⟩ length i b s hb0 ht.1 ht.2, hadd, bind_apply]
    simp only [Nat.zero_add, hr, pure_apply]
    have e : i + n = length := by omega
    rw [e, hstop]

/-- C14 on the 4-byte buffer `[0xC1, 0x05, 0x00, 0x09]`: the stream frame announces 9 data
bytes that are not there. -/
theorem malformed_frame_ends_decoding_witness :
    0 < 4 ∧ ([0xC1, 0x05, 0x00, 0x09] : List (Fin 256))[0]? = some 0xC1
      ∧ picoquic_log_frames_loop ⟨[0xC1, 0x05, 0x00, 0x09], 0⟩ 4 (3 + 2) 0 ⟨[], []⟩
        = (Outcome.ret 4,
            ⟨[streamLine 5 0 9, ⟨", malformed!\n", []⟩], [0, 0, 1, 2, 3]⟩) :=
  ⟨by decide, by decide,
    ((malformed_frame_ends_decoding [0xC1, 0x05, 0x00, 0x09] 4 0 3 4 4 ⟨[], []⟩
        ⟨[streamLine 5 0 9, ⟨", malformed!\n", []⟩], [0, 0, 1, 2, 3]⟩ 0xC1
        (by decide) (by decide)).1
      (by decide) (by decide)
      ⟨⟨", malformed!\n", []⟩, by decide, Or.inr (Or.inl rfl)⟩).2.2⟩

/-- C15: for every packet of `length` bytes and header offset `o <= length`,
`picoquic_log_negotiation_packet` lists exactly `(length - o) / 4` version values, the
`k`-th being the big-endian value of the 4 bytes at `o + 4k .. o + 4k + 3`, in wire order;
the indices it reads are `o, ..., o + 4 * ((length - o) / 4) - 1`, all below `length`, so up
to 3 trailing bytes are ignored. -/
theorem negotiation_packet_lists_versions (bytes : List (Fin 256))
    (ph : picoquic_packet_header) (ho : ph.offset ≤ bytes.length) :
    (picoquic_log_negotiation_packet ⟨bytes, 0⟩ bytes.length ph).run
        = (Outcome.ret (),
            ⟨[⟨"    versions: ", []⟩]
              ++ (List.range ((bytes.length - ph.offset) / 4)).map (fun k =>
                  (⟨"%x, ", [Arg.num (field bytes (ph.offset + 4 * k) 4)]⟩ : Printf))
              ++ [⟨"\n", []⟩],
             List.range' ph.offset (4 * ((bytes.length - ph.offset) / 4))⟩)
      ∧ ∀ i ∈ (picoquic_log_negotiation_packet ⟨bytes, 0⟩ bytes.length ph).run.2.reads,
          i < bytes.length := by
  have hrun : (picoquic_log_negotiation_packet ⟨bytes, 0⟩ bytes.length ph).run
        = (Outcome.ret (),
            ⟨[⟨"    versions: ", []⟩]
              ++ (List.range ((bytes.length - ph.offset) / 4)).map (fun k =>
                  (⟨"%x, ", [Arg.num (field bytes (ph.offset + 4 * k) 4)]⟩ : Printf))
              ++ [⟨"\n", []⟩],
             List.range' ph.offset (4 * ((bytes.length - ph.offset) / 4))⟩) := by
    unfold M.run picoquic_log_negotiation_packet
    simp only [bind_apply, fprintf_apply]
    rw [negotiation_versions_apply ⟨bytes, 0⟩ bytes.length ((bytes.length - ph.offset) / 4)
      (bytes.length + 1) ph.offset _ (by omega) (by omega) (by omega) (by simp)]
    simp only [Nat.zero_add, List.nil_append, List.singleton_append, List.cons_append]
  refine ⟨hrun, ?_⟩
  rw [hrun]
  intro i hi
  simp only [List.mem_range'_1] at hi
  omega

/-- C15 on a 17-byte packet whose payload is the 8 bytes after a 9-byte header: exactly two
versions are listed, in the order they appear. -/
theorem negotiation_packet_lists_versions_witness :
    (⟨1, 7, 1, 0, 9⟩ : picoquic_packet_header).offset
        ≤ ([0x81, 0, 0, 0, 0, 0, 0, 0, 7, 0xff, 0, 0, 5, 0xff, 0, 0, 7] : List (Fin 256)).length
      ∧ (picoquic_log_negotiation_packet
            ⟨[0x81, 0, 0, 0, 0, 0, 0, 0, 7, 0xff, 0, 0, 5, 0xff, 0, 0, 7], 0⟩ 17
            ⟨1, 7, 1, 0, 9⟩).run
        = (Outcome.ret (),
            ⟨[⟨"    versions: ", []⟩, ⟨"%x, ", [Arg.num 0xff000005]⟩,
              ⟨"%x, ", [Arg.num 0xff000007]⟩, ⟨"\n", []⟩],
             [9, 10, 11, 12, 13, 14, 15, 16]⟩) :=
  ⟨by decide,
    (negotiation_packet_lists_versions
      [0x81, 0, 0, 0, 0, 0, 0, 0, 7, 0xff, 0, 0, 5, 0xff, 0, 0, 7] ⟨1, 7, 1, 0, 9⟩
      (by decide)).1.trans (by decide)⟩

/-- C17: the 9-byte ack frame `[0xB0, 0x01, 0x00, 0x07, 0x00, 0x00, 0x05, 0x01, 0x09]`
(block count 1, no timestamps, 1-byte largest field, 1-byte ranges) requires exactly
`bytes_max = 9` bytes, so the size check passes; the decoder then reads the range of the
additional block at index 9, which is not below `bytes_max`: the claim that every read lies
at an index `< bytes_max` fails on the code. -/
theorem ack_frame_reads_past_bytes_max :
    ackRequired 0xB0 1 0 = 9
      ∧ (picoquic_log_ack_frame
            ⟨[0xB0, 0x01, 0x00, 0x07, 0x00, 0x00, 0x05, 0x01, 0x09], 0⟩ 9).run
        = (Outcome.oob,
            ⟨[⟨"    ACK (nb=%d, nt=%d),", [Arg.num 1, Arg.num 0]⟩,
              ⟨"Largest = %02x, ", [Arg.num 7]⟩,
              ⟨"range: %llx, ", [Arg.num 5]⟩],
             [0, 1, 2, 3, 6, 8, 9]⟩)
      ∧ ∃ i ∈ (picoquic_log_ack_frame
            ⟨[0xB0, 0x01, 0x00, 0x07, 0x00, 0x00, 0x05, 0x01, 0x09], 0⟩ 9).run.2.reads, 9 ≤ i := by
  have h : (picoquic_log_ack_frame
            ⟨[0xB0, 0x01, 0x00, 0x07, 0x00, 0x00, 0x05, 0x01, 0x09], 0⟩ 9).run
        = (Outcome.oob,
            ⟨[⟨"    ACK (nb=%d, nt=%d),", [Arg.num 1, Arg.num 0]⟩,
              ⟨"Largest = %02x, ", [Arg.num 7]⟩,
              ⟨"range: %llx, ", [Arg.num 5]⟩],
             [0, 1, 2, 3, 6, 8, 9]⟩) := by decide!
  refine ⟨by decide, h, 9, ?_, le_refl 9⟩
  rw [h]
  decide

/-- C20: for a 20-byte client-cleartext packet whose header offset is `o = 17` and whose
checksum verification returns the verified length `v = 12` (both at most 20), the length
handed to the frame sequence decoder is `v - o` in `size_t` arithmetic, which wraps to
`2 ^ 64 - 5`: the region that starts at `o` extends far beyond the packet, and the decoder
reads index 20 of the 20-byte packet. -/
theorem cleartext_region_wraps_below_offset :
    size_t_sub 12 17 = 2 ^ 64 - 5
      ∧ ¬ (17 + size_t_sub 12 17 ≤ 20)
      ∧ (picoquic_log_packet
            { picoquic_parse_packet_header := fun _ _ =>
                (0, ⟨picoquic_packet_client_cleartext, 7, 1, 0xff000005, 17⟩),
              picoquic_cnx_by_net := fun _ => false,
              picoquic_cnx_by_id := fun _ => false,
              fnv1a_check := fun _ _ => 12,
              picoquic_aead_decrypt := fun _ _ _ => ([], 0) }
            (sockaddr.in4 127 0 0 1 0x11 0x51) 1
            ⟨[0x85, 0, 0, 0, 0, 0, 0, 0, 7, 0, 0, 0, 1, 0xff, 0, 0, 5, 0xC0, 0x05, 0x00], 0⟩
            20).run
        = (Outcome.oob,
            ⟨[⟨"Receiving %d bytes from ", [Arg.num 20]⟩,
              ⟨"%d.%d.%d.%d:%d\n",
                [Arg.num 127, Arg.num 0, Arg.num 0, Arg.num 1, Arg.num 4433]⟩,
              ⟨"    Type: %d(%s), CnxID: %llx%s, Seq: %x, Version %x\n",
                [Arg.num 5, Arg.str "client cleartext", Arg.num 7, Arg.str " (unknown)",
                  Arg.num 1, Arg.num 0xff000005]⟩,
              ⟨"    FNV1A checksum is correct (%d bytes).\n", [Arg.num 12]⟩,
              streamLine 5 0 (2 ^ 64 - 7),
              ⟨": ", []⟩,
              ⟨"%02x", [Arg.num 0]⟩],
             [17, 17, 18, 19, 20]⟩) := by
  refine ⟨by decide, by decide, by decide!⟩

/-- C18: an ack frame slice whose range-width selector is 1, 2 or 3 (ranges of 2, 4 or 8
bytes) and whose required size `min_size` is at most the available length is decoded in
full: the count returned is exactly `min_size`, the line ends with a plain newline (no
malformed marker), and after the largest value and the first range exactly `num_block`
(gap, range) pairs are rendered in wire order, the `k`-th gap being the byte at offset
`start + k * (1 + rangeWidth)` and the `k`-th range the big-endian value of the `rangeWidth`
bytes after it, where `start` is the offset that follows the first range.  The delay field
and the timestamp section are neither read nor rendered. -/
theorem ack_frame_wide_ranges (t : Fin 256) (rest : List (Fin 256))
    (hsel : t.val % 4 ≠ 0)
    (hfit : ackRequired t.val (ackNumBlock (t :: rest)) (ackNumTs (t :: rest))
      ≤ (t :: rest).length) :
    (picoquic_log_ack_frame ⟨t :: rest, 0⟩ (t :: rest).length).run
      = (Outcome.ret (ackRequired t.val (ackNumBlock (t :: rest)) (ackNumTs (t :: rest))),
          ⟨[ackLine (ackNumBlock (t :: rest)) (ackNumTs (t :: rest)),
              largestCall (t.val / 4 % 4) (field (t :: rest) (ackHeader t.val) (largestWidth t.val)),
              firstRangeCall
                (field (t :: rest) (ackHeader t.val + largestWidth t.val + 2) (rangeWidth t.val))]
            ++ (List.range (ackNumBlock (t :: rest))).map (fun k =>
                blockCall
                  (field (t :: rest)
                    (ackHeader t.val + largestWidth t.val + 2 + rangeWidth t.val
                      + k * (1 + rangeWidth t.val)) 1)
                  (field (t :: rest)
                    (ackHeader t.val + largestWidth t.val + 2 + rangeWidth t.val
                      + k * (1 + rangeWidth t.val) + 1) (rangeWidth t.val)))
            ++ [⟨"\n", []⟩],
           List.range' 0 (ackHeader t.val)
            ++ List.range' (ackHeader t.val) (largestWidth t.val)
            ++ List.range' (ackHeader t.val + largestWidth t.val + 2) (rangeWidth t.val)
            ++ List.range' (ackHeader t.val + largestWidth t.val + 2 + rangeWidth t.val)
                (ackNumBlock (t :: rest) * (1 + rangeWidth t.val))⟩) := by
  have hmm : t.val % 4 = 1 ∨ t.val % 4 = 2 ∨ t.val % 4 = 3 := by omega
  have hs := ack_frame_sized_apply ⟨t :: rest, 0⟩ (t :: rest).length ⟨[], []⟩ (by simp)
    (by simpa only [List.drop_zero, field_head] using hfit)
  simp only [List.drop_zero, field_head] at hs
  unfold M.run
  rw [hs, ack_decode_apply ⟨t :: rest, 0⟩ (t :: rest).length (t.val / 4 % 4) (t.val % 4)
    (ackNumBlock (t :: rest)) (ackNumTs (t :: rest)) (ackHeader t.val) _ (by omega) hmm
    (by
      have := hfit
      unfold ackRequired largestWidth rangeWidth at this
      rw [Nat.mul_comm 3 (ackNumTs (t :: rest))] at this
      exact this)
    (by simp)]
  simp only [ackRequired, largestWidth, rangeWidth, Nat.zero_add, List.nil_append,
    List.append_assoc, Nat.mul_comm 3 (ackNumTs (t :: rest))]

/-- C18 on a 12-byte frame with tag `0xB5` (block count byte, 2-byte largest field, 2-byte
ranges), one additional block and no timestamps. -/
theorem ack_frame_wide_ranges_witness :
    (0xB5 : Fin 256).val % 4 ≠ 0
      ∧ ackRequired (0xB5 : Fin 256).val
          (ackNumBlock [0xB5, 0x01, 0x00, 0x01, 0x02, 0x00, 0x00, 0x00, 0x05, 0x03, 0x00, 0x04])
          (ackNumTs [0xB5, 0x01, 0x00, 0x01, 0x02, 0x00, 0x00, 0x00, 0x05, 0x03, 0x00, 0x04])
        ≤ ([0xB5, 0x01, 0x00, 0x01, 0x02, 0x00, 0x00, 0x00, 0x05, 0x03, 0x00, 0x04]
            : List (Fin 256)).length
      ∧ (picoquic_log_ack_frame
            ⟨[0xB5, 0x01, 0x00, 0x01, 0x02, 0x00, 0x00, 0x00, 0x05, 0x03, 0x00, 0x04], 0⟩ 12).run
        = (Outcome.ret 12,
            ⟨[ackLine 1 0, ⟨"Largest = %04x, ", [Arg.num 0x0102]⟩, firstRangeCall 5,
              blockCall 3 4, ⟨"\n", []⟩],
             [0, 1, 2, 3, 4, 7, 8, 9, 10, 11]⟩) :=
  ⟨by decide, by decide,
    (ack_frame_wide_ranges 0xB5
      [0x01, 0x00, 0x01, 0x02, 0x00, 0x00, 0x00, 0x05, 0x03, 0x00, 0x04]
      (by decide) (by decide)).trans (by decide)⟩

/-- C16: for every 16-byte IPv6 address, `picoquic_log_packet_address` returns, and what it
writes after the first line fragment is the eight group numerals joined by single colons and
followed by a newline, with no "::" compression (the all-zero address gives
`0:0:0:0:0:0:0:0`).  Each group numeral is the numeral of the 16-bit big-endian value of its
two bytes: it has 1 to 4 lower-case hexadecimal digits (so no colon), denotes the value, has
no leading zero unless the value is zero, and no nonempty hexadecimal numeral of the same
value is shorter; a group whose high byte is zero is the unpadded hexadecimal of its low
byte. -/
theorem address_ipv6_eight_minimal_groups (Byte : Fin 16 → Fin 256) (receiving length : Nat) :
    (picoquic_log_packet_address (sockaddr.in6 Byte) receiving length ⟨[], []⟩).1
        = Outcome.ret ()
      ∧ render ((picoquic_log_packet_address (sockaddr.in6 Byte) receiving length
            ⟨[], []⟩).2.out.drop 1)
          = String.intercalate ":"
              ((List.finRange 8).map (fun k => hexNumeral (groupValue Byte k))) ++ "\n"
      ∧ (∀ k : Fin 8,
          1 ≤ (hexNumeral (groupValue Byte k)).data.length
            ∧ (hexNumeral (groupValue Byte k)).data.length ≤ 4
            ∧ (∀ c ∈ (hexNumeral (groupValue Byte k)).data, c ∈ "0123456789abcdef".data)
            ∧ hexValue (hexNumeral (groupValue Byte k)).data = groupValue Byte k
            ∧ (groupValue Byte k ≠ 0 →
                (hexNumeral (groupValue Byte k)).data.head? ≠ some '0')
            ∧ (∀ ds : List Char, ds ≠ [] → (∀ c ∈ ds, c ∈ "0123456789abcdef".data) →
                hexValue ds = groupValue Byte k →
                (hexNumeral (groupValue Byte k)).data.length ≤ ds.length)
            ∧ ((Byte ⟨2 * k.val, by omega⟩).val = 0 →
                hexNumeral (groupValue Byte k)
                  = hexNumeral (Byte ⟨2 * k.val + 1, by omega⟩).val))
      ∧ render ((picoquic_log_packet_address (sockaddr.in6 (fun _ => 0)) receiving length
            ⟨[], []⟩).2.out.drop 1) = "0:0:0:0:0:0:0:0\n" := by
  refine ⟨?_, ?_, ?_, ?_⟩
  · rw [packet_address_in6_apply]
  · rw [packet_address_in6_apply]
    simp only [List.nil_append, List.drop_succ_cons, List.drop_zero]
    exact render_address Byte
  · intro k
    obtain ⟨h1, h2, h3, h4, h5⟩ := toDigits_hex 3 (groupValue Byte k) (groupValue_lt Byte k)
    refine ⟨h1, h2, h3, h4, h5, ?_, ?_⟩
    · intro ds hne hhex hval
      show (Nat.toDigits 16 (groupValue Byte k)).length ≤ ds.length
      by_cases hz : groupValue Byte k = 0
      · rw [hz, toDigits_lt 16 0 (by decide)]
        cases ds with
        | nil => exact absurd rfl hne
        | cons c cs => simp
      · have hmin := toDigits_len_min 3 (groupValue Byte k) (groupValue_lt Byte k) hz
        have hlt := hexValue_lt ds hhex
        rw [hval] at hlt
        by_contra hcon
        have hle : ds.length ≤ (Nat.toDigits 16 (groupValue Byte k)).length - 1 := by omega
        have hpow : 16 ^ ds.length ≤ 16 ^ ((Nat.toDigits 16 (groupValue Byte k)).length - 1) :=
          Nat.pow_le_pow_right (by decide) hle
        omega
    · intro hz
      simp only [groupValue, hz, Nat.zero_mul, Nat.zero_add]
  · rw [packet_address_in6_apply]
    simp only [List.nil_append, List.drop_succ_cons, List.drop_zero]
    rw [render_address]
    decide

end Picoquic
